import Mathlib

/-!
# The LCS decoder of `coming-chat/lcs` (`decode.go`)

A shallow embedding of the reflective decoder.  A Go type is a term of `Ty`, a Go value of
that type is an element of `Ty.denote`, the `io.Reader` over the input is the list of the
bytes not yet read, and a call that mutates its target and its reader and returns an `error`
is a function returning an `Outcome`: the error (if any), the target after the call and the
unread input after the call.

Conventions of the embedding:

* `Unmarshal` is handed a pointer to its target, as its API states and as the tests do, so
  every handle the walker reaches is settable except unexported struct fields; these are the
  fields with `exported = false`.  The "cannot set" errors are therefore not reachable.
* `int` is 64 bits wide, so `int(l)` of a `uint32` is `l`.
* A slice or a map is `none` when it is nil; the capacity a slice or map is created with
  (`SliceAndMapInitSize`) is not part of its value.
* An array value is the list of its elements; its length is the declared length.
* A map is the list of its bindings in the order the keys were first inserted; Go gives a map
  no order and `deepEqual` ignores it.
* A type built from the constructors other than `named` is the unnamed or predeclared type of
  that shape: `.uint .w8` is `byte`, `.slice (.uint .w8)` is `[]byte`.  `named t` is a defined
  type (`type N t`): it has the kind and the values of `t` and is identical to no other type, so
  `[]MyByte` is `.slice (.named (.uint .w8))` and `type B []byte` is
  `.named (.slice (.uint .w8))`.  The decoder switches on the kind but chooses its byte fast
  paths by type identity.
-/

/-- One byte of input. -/
abbrev Byte := Fin 256

/-- Declared width of a fixed-width integer kind. -/
inductive Width where
  | w8
  | w16
  | w32
  | w64
deriving DecidableEq, Repr

/-- Kinds of `reflect.Kind` that `decode` sends to its `default` branch, the interface kind
apart (it has a constructor of its own in `Ty`). -/
inductive OtherKind where
  | int
  | uint
  | uintptr
  | float32
  | float64
  | complex64
  | complex128
  | chan
  | func
  | unsafePointer
deriving DecidableEq, Repr

mutual
/-- Go types: the type constructors by `reflect.Kind`, and `named t`, a defined type whose
underlying type is `t`. -/
inductive Ty where
  | bool
  | int (w : Width)
  | uint (w : Width)
  | slice (e : Ty)
  | array (n : Nat) (e : Ty)
  | string
  | struct (fs : Fields)
  | map (k v : Ty)
  | ptr (e : Ty)
  | iface
  | other (k : OtherKind)
  | named (t : Ty)
/-- Fields of a struct type in declaration order: whether the field is exported, the value of
its `lcs` tag (`Tag.Get(lcsTagName)`, empty when there is none) and its type. -/
inductive Fields where
  | nil
  | cons (exported : Bool) (tag : String) (t : Ty) (rest : Fields)
end

mutual
/-- Values of a Go type.  A string is its bytes (Go does not require them to be UTF-8); an
interface value is nil or a handle of the dynamic value it holds, which the decoder never
looks into; a value of an unsupported kind is a handle as well. -/
@[reducible]
def Ty.denote : Ty → Type
  | .bool => Bool
  | .int _ => Int
  | .uint _ => Nat
  | .slice e => Option (List e.denote)
  | .array _ e => List e.denote
  | .string => List Byte
  | .struct fs => fs.denote
  | .map k v => Option (List (k.denote × v.denote))
  | .ptr e => Option e.denote
  | .iface => Option Nat
  | .other _ => Nat
  | .named t => t.denote
/-- Values of a struct: one value per field, in declaration order. -/
@[reducible]
def Fields.denote : Fields → Type
  | .nil => Unit
  | .cons _ _ t rest => t.denote × rest.denote
end

mutual
/-- The zero value of a type (`reflect.Zero`, and what `reflect.New` points to). -/
def zero : (t : Ty) → t.denote
  | .bool => false
  | .int _ => (0 : Int)
  | .uint _ => (0 : Nat)
  | .slice _ => none
  | .array n e => List.replicate n (zero e)
  | .string => []
  | .struct fs => zeroFields fs
  | .map _ _ => none
  | .ptr _ => none
  | .iface => none
  | .other _ => (0 : Nat)
  | .named t => zero t
/-- The zero value of a struct. -/
def zeroFields : (fs : Fields) → fs.denote
  | .nil => ()
  | .cons _ _ t rest => (zero t, zeroFields rest)
end

/-- The errors of `decode.go`: `io.EOF` and `io.ErrUnexpectedEOF` from the reader, and the
errors the decoder makes with `errors.New`. -/
inductive Err where
  | eof
  | unexpectedEOF
  | invalidBool
  | tooLong
  | lengthMismatch
  | notSupported
  | unexpectedData
deriving DecidableEq, Repr

/-- What a call leaves behind: its error, its target and the unread input. -/
structure Outcome (α : Type) where
  err : Option Err
  val : α
  rest : List Byte
deriving DecidableEq

/-- The constant `MaxByteSliceSize`. -/
def MaxByteSliceSize : Nat := 100 * 1024 * 1024

/-- The constant `SliceAndMapInitSize`. -/
def SliceAndMapInitSize : Nat := 100

/-- Bytes of a width. -/
def Width.bytes : Width → Nat
  | .w8 => 1
  | .w16 => 2
  | .w32 => 4
  | .w64 => 8

/-- `io.ReadFull` into a fresh buffer of `n` bytes over a `bytes.Reader`: all `n` bytes, or
`io.EOF` when none was read, or `io.ErrUnexpectedEOF` when the input ended part way (the
bytes that were there are consumed).  The value is the buffer after the call: at an error it
holds the bytes that were read and is zero from there on.  A buffer of length 0 is filled
without reading. -/
def readFull (n : Nat) (inp : List Byte) : Outcome (List Byte) :=
  if n ≤ inp.length then ⟨none, inp.take n, inp.drop n⟩
  else if inp = [] then ⟨some .eof, List.replicate n 0, []⟩
  else ⟨some .unexpectedEOF, inp ++ List.replicate (n - inp.length) 0, []⟩

/-- Little-endian reading of a byte string (`binary.LittleEndian`). -/
def leNat : List Byte → Nat
  | [] => 0
  | b :: bs => b.val + 256 * leNat bs

/-- Reinterpretation of an unsigned reading as a two's-complement integer of the width. -/
def toSigned (w : Width) (n : Nat) : Int :=
  if n < 2 ^ (8 * w.bytes - 1) then (n : Int) else (n : Int) - 2 ^ (8 * w.bytes)

/-- The `reflect.Bool` case of `decode`; also what `decodeStruct` runs for a presence flag,
where the target is a fresh `bool`. -/
def decodeBool (v : Bool) (inp : List Byte) : Outcome Bool :=
  let r := readFull 1 inp
  match r.err with
  | some e => ⟨some e, v, r.rest⟩
  | none =>
    let v8 := leNat r.val
    if v8 = 1 then ⟨none, true, r.rest⟩
    else if v8 = 0 then ⟨none, false, r.rest⟩
    else ⟨some .invalidBool, v, r.rest⟩

/-- The statement `binary.Read(r, binary.LittleEndian, &l)` for `l := uint32(0)`. -/
def readUint32 (inp : List Byte) : Outcome Nat :=
  let r := readFull 4 inp
  match r.err with
  | some e => ⟨some e, 0, r.rest⟩
  | none => ⟨none, leNat r.val, r.rest⟩

/-- The function `decodeByteSlice`.  The value is the slice `b` it returns: nil (here the empty
list) when the length cannot be read or exceeds the ceiling, and otherwise the buffer of the
claimed length, which after a short read holds the bytes that were there followed by zeros. -/
def decodeByteSlice (inp : List Byte) : Outcome (List Byte) :=
  let rl := readUint32 inp
  match rl.err with
  | some e => ⟨some e, [], rl.rest⟩
  | none =>
    if rl.val > MaxByteSliceSize then ⟨some .tooLong, [], rl.rest⟩
    else
      let rb := readFull rl.val rl.rest
      match rb.err with
      | some e => ⟨some e, rb.val, rb.rest⟩
      | none => ⟨none, rb.val, rb.rest⟩

/-- The capacity `decodeSlice` and `decodeMap` allocate for a claimed count (`cap`); it bounds
the first allocation only and no value depends on it. -/
def initCap (l : Nat) : Nat :=
  if l > SliceAndMapInitSize then SliceAndMapInitSize else l

/-- The loop of `decodeSlice`: `n` more elements, each decoded by `f` into a fresh zero value
`z` and appended to `acc`. -/
def decodeElems {α : Type} (f : α → List Byte → Outcome α) (z : α) :
    Nat → List α → List Byte → Outcome (List α)
  | 0, acc, inp => ⟨none, acc, inp⟩
  | n + 1, acc, inp =>
    let r := f z inp
    match r.err with
    | some e => ⟨some e, acc, r.rest⟩
    | none => decodeElems f z n (acc ++ [r.val]) r.rest

/-- The loop of `decodeArray` over a non-byte array: every element is decoded in place, in
index order; at an error the elements after the failing one are as they were. -/
def decodeInPlace {α : Type} (f : α → List Byte → Outcome α) :
    List α → List Byte → Outcome (List α)
  | [], inp => ⟨none, [], inp⟩
  | x :: xs, inp =>
    let r := f x inp
    match r.err with
    | some e => ⟨some e, r.val :: xs, r.rest⟩
    | none =>
      let r2 := decodeInPlace f xs r.rest
      ⟨r2.err, r.val :: r2.val, r2.rest⟩

/-- Elementwise comparison of two lists of one length. -/
def listAll2 {α : Type} (p : α → α → Bool) : List α → List α → Bool
  | [], [] => true
  | x :: xs, y :: ys => p x y && listAll2 p xs ys
  | _, _ => false

mutual
/-- Go's `==` on two map keys of one type that were allocated apart, as the keys of one
decode are: two pointers are then equal only when both are nil.  Slices and maps are not
comparable and are never keys. -/
def keyEq : (t : Ty) → t.denote → t.denote → Bool
  | .bool, a, b => decide (a = b)
  | .int _, a, b => decide (a = b)
  | .uint _, a, b => decide (a = b)
  | .slice _, _, _ => false
  | .array _ e, a, b => listAll2 (keyEq e) a b
  | .string, a, b => decide (a = b)
  | .struct fs, a, b => keyEqFields fs a b
  | .map _ _, _, _ => false
  | .ptr _, a, b => a.isNone && b.isNone
  | .iface, a, b => decide (a = b)
  | .other _, a, b => decide (a = b)
  | .named t, a, b => keyEq t a b
/-- Go's `==` on structs: field by field, unexported fields included. -/
def keyEqFields : (fs : Fields) → fs.denote → fs.denote → Bool
  | .nil, _, _ => true
  | .cons _ _ t rest, (x, xs), (y, ys) => keyEq t x y && keyEqFields rest xs ys
end

/-- The value a map binds a key to (`MapIndex`), if any. -/
def mapIndex {κ ν : Type} (eq : κ → κ → Bool) : List (κ × ν) → κ → Option ν
  | [], _ => none
  | (k, v) :: m, key => if eq k key then some v else mapIndex eq m key

/-- The call `m.SetMapIndex(k, v)`: the binding of an equal key is overwritten, a new key is
added. -/
def setMapIndex {κ ν : Type} (eq : κ → κ → Bool) : List (κ × ν) → κ → ν → List (κ × ν)
  | [], key, val => [(key, val)]
  | (k, v) :: m, key, val =>
    if eq k key then (k, val) :: m else (k, v) :: setMapIndex eq m key val

/-- The loop of `decodeMap`: `n` more pairs, the key decoded by `fk` and the value by `fv`,
each into a fresh zero value, and stored with `SetMapIndex`. -/
def decodePairs {κ ν : Type} (eq : κ → κ → Bool) (fk : κ → List Byte → Outcome κ) (zk : κ)
    (fv : ν → List Byte → Outcome ν) (zv : ν) :
    Nat → List (κ × ν) → List Byte → Outcome (List (κ × ν))
  | 0, m, inp => ⟨none, m, inp⟩
  | n + 1, m, inp =>
    let rk := fk zk inp
    match rk.err with
    | some e => ⟨some e, m, rk.rest⟩
    | none =>
      let rv := fv zv rk.rest
      match rv.err with
      | some e => ⟨some e, m, rv.rest⟩
      | none => decodePairs eq fk zk fv zv n (setMapIndex eq m rk.val rv.val) rv.rest

/-- The test `fv.Kind() == reflect.Interface || fv.Kind() == reflect.Ptr` of `decodeStruct`;
a defined type has the kind of its underlying type. -/
def isNullable : Ty → Bool
  | .ptr _ => true
  | .iface => true
  | .named t => isNullable t
  | _ => false

mutual
/-- The function `decode`, with `decodeSlice`, `decodeArray`, `decodeString` and `decodeMap`
inlined at their cases.  The switch is on the kind, so a defined type is decoded as its
underlying type, with one exception: `decodeSlice` takes the byte fast path only when the
type of the target is `[]byte` itself (`rv.Type() == reflect.TypeOf([]byte{})`), so a defined
slice type runs the general loop.  `decodeArray` takes the byte fast path when the element
type is `byte` itself (`rv.Type().Elem() == reflect.TypeOf(byte(0))`), whether or not the
array type is a defined one. -/
def decode : (t : Ty) → t.denote → List Byte → Outcome t.denote
  | .bool, v, inp => decodeBool v inp
  | .int w, v, inp =>
    let r := readFull w.bytes inp
    match r.err with
    | some e => ⟨some e, v, r.rest⟩
    | none => ⟨none, toSigned w (leNat r.val), r.rest⟩
  | .uint w, v, inp =>
    let r := readFull w.bytes inp
    match r.err with
    | some e => ⟨some e, v, r.rest⟩
    | none => ⟨none, leNat r.val, r.rest⟩
  | .slice (.uint .w8), v, inp =>
    let r := decodeByteSlice inp
    match r.err with
    | some e => ⟨some e, v, r.rest⟩
    | none => ⟨none, some (r.val.map (fun b => b.val)), r.rest⟩
  | .slice e, v, inp =>
    let rl := readUint32 inp
    match rl.err with
    | some err => ⟨some err, v, rl.rest⟩
    | none =>
      let r := decodeElems (decode e) (zero e) rl.val [] rl.rest
      match r.err with
      | some err => ⟨some err, v, r.rest⟩
      | none => ⟨none, some r.val, r.rest⟩
  | .array n (.uint .w8), v, inp =>
    let r := decodeByteSlice inp
    match r.err with
    | some e => ⟨some e, v, r.rest⟩
    | none =>
      if r.val.length ≠ n then ⟨some .lengthMismatch, v, r.rest⟩
      else ⟨none, r.val.map (fun b => b.val), r.rest⟩
  | .array n e, v, inp =>
    let rl := readUint32 inp
    match rl.err with
    | some err => ⟨some err, v, rl.rest⟩
    | none =>
      if rl.val ≠ n then ⟨some .lengthMismatch, v, rl.rest⟩
      else decodeInPlace (decode e) v rl.rest
  | .string, v, inp =>
    let r := decodeByteSlice inp
    match r.err with
    | some e => ⟨some e, v, r.rest⟩
    | none => ⟨none, r.val, r.rest⟩
  | .struct fs, v, inp => decodeStruct fs v inp
  | .map k e, v, inp =>
    let rl := readUint32 inp
    match rl.err with
    | some err => ⟨some err, v, rl.rest⟩
    | none =>
      let r := decodePairs (keyEq k) (decode k) (zero k) (decode e) (zero e) rl.val [] rl.rest
      match r.err with
      | some err => ⟨some err, v, r.rest⟩
      | none => ⟨none, some r.val, r.rest⟩
  | .ptr e, v, inp =>
    let r := decode e (match v with
      | none => zero e
      | some x => x) inp
    ⟨r.err, some r.val, r.rest⟩
  | .iface, v, inp => ⟨some .notSupported, v, inp⟩
  | .other _, v, inp => ⟨some .notSupported, v, inp⟩
  | .named (.slice e), v, inp =>
    let rl := readUint32 inp
    match rl.err with
    | some err => ⟨some err, v, rl.rest⟩
    | none =>
      let r := decodeElems (decode e) (zero e) rl.val [] rl.rest
      match r.err with
      | some err => ⟨some err, v, r.rest⟩
      | none => ⟨none, some r.val, r.rest⟩
  | .named t, v, inp => decode t v inp
/-- The function `decodeStruct`: the loop over the fields from the current one on.  A field
that is not settable or is tagged `-` is passed over (`continue`).  For a pointer or interface
field tagged `optional` the presence flag is decoded into a fresh `bool`; `flag` is the
outcome of that decode, and for every other field it is `true` with nothing read.  A false
flag sets the field to its zero value and goes on to the next field; otherwise the field is
decoded. -/
def decodeStruct : (fs : Fields) → fs.denote → List Byte → Outcome fs.denote
  | .nil, v, inp => ⟨none, v, inp⟩
  | .cons exported tag t rest, (x, xs), inp =>
    if !exported || tag = "-" then
      let r := decodeStruct rest xs inp
      ⟨r.err, (x, r.val), r.rest⟩
    else
      let flag : Outcome Bool :=
        if isNullable t && tag = "optional" then decodeBool false inp else ⟨none, true, inp⟩
      match flag.err with
      | some e => ⟨some e, (x, xs), flag.rest⟩
      | none =>
        if !flag.val then
          let r := decodeStruct rest xs flag.rest
          ⟨r.err, (zero t, r.val), r.rest⟩
        else
          let r := decode t x flag.rest
          match r.err with
          | some e => ⟨some e, (r.val, xs), r.rest⟩
          | none =>
            let r2 := decodeStruct rest xs r.rest
            ⟨r2.err, (r.val, r2.val), r2.rest⟩
end

/-- The method `Decoder.EOF` over a `bytes.Reader`: it reads one byte and answers whether the
read met the end of the input. -/
def Decoder.EOF (inp : List Byte) : Bool × List Byte :=
  match inp with
  | [] => (true, [])
  | _ :: rest => (false, rest)

/-- The function `Unmarshal` on a pointer to a target of type `t` holding `v`. -/
def Unmarshal (t : Ty) (v : t.denote) (data : List Byte) : Outcome t.denote :=
  let r := decode t v data
  match r.err with
  | some e => ⟨some e, r.val, r.rest⟩
  | none =>
    let q := Decoder.EOF r.rest
    if !q.1 then ⟨some .unexpectedData, r.val, q.2⟩ else ⟨none, r.val, q.2⟩

/-- A decoder that reads no further than what it consumes: when it succeeds on an input it
succeeds likewise on that input followed by more bytes, and leaves those bytes unread. -/
def Framed {α : Type} (f : α → List Byte → Outcome α) : Prop :=
  ∀ v inp e, (f v inp).err = none → f v (inp ++ e) = ⟨none, (f v inp).val, (f v inp).rest ++ e⟩

/-- The values `xs` are what consecutive element decodes, each into a fresh zero value `z`,
read from `inp` one after the other with nothing between them, and `out` is what they leave
unread. -/
def readsInOrder {α : Type} (f : α → List Byte → Outcome α) (z : α) :
    List Byte → List α → List Byte → Prop
  | inp, [], out => out = inp
  | inp, x :: xs, out =>
    (f z inp).err = none ∧ (f z inp).val = x ∧ readsInOrder f z (f z inp).rest xs out

/-- The keys of a stream of pairs that are not `==` to a key earlier in the stream, in stream
order: the distinct keys of the stream. -/
def distinctKeys {κ : Type} (eq : κ → κ → Bool) (ks : List κ) : List κ :=
  ks.foldl (fun acc k => if acc.any (fun a => eq a k) then acc else acc ++ [k]) []

/-- One key/value pair on the wire: the bytes of the key and the key they decode to, the bytes
of the value and the value they decode to. -/
structure WirePair (κ ν : Type) where
  keyBytes : List Byte
  key : κ
  valBytes : List Byte
  val : ν

mutual
/-- The function `reflect.DeepEqual` on two values of one type held in storage allocated
apart (a value and a decode, or two decodes): slices and maps are equal when both are nil or
both are not, with equal lengths and equal contents, map keys being matched with `==`;
pointers are equal when both are nil or their referents are equal; structs are compared on
all their fields. -/
def deepEqual : (t : Ty) → t.denote → t.denote → Bool
  | .bool, a, b => decide (a = b)
  | .int _, a, b => decide (a = b)
  | .uint _, a, b => decide (a = b)
  | .slice e, a, b =>
    match a, b with
    | none, none => true
    | some xs, some ys => listAll2 (deepEqual e) xs ys
    | _, _ => false
  | .array _ e, a, b => listAll2 (deepEqual e) a b
  | .string, a, b => decide (a = b)
  | .struct fs, a, b => deepEqualFields fs a b
  | .map k e, a, b =>
    match a, b with
    | none, none => true
    | some xs, some ys =>
      decide (xs.length = ys.length) &&
        xs.all (fun p =>
          match mapIndex (keyEq k) ys p.1 with
          | some y => deepEqual e p.2 y
          | none => false)
    | _, _ => false
  | .ptr e, a, b =>
    match a, b with
    | none, none => true
    | some x, some y => deepEqual e x y
    | _, _ => false
  | .iface, a, b => decide (a = b)
  | .other _, a, b => decide (a = b)
  | .named t, a, b => deepEqual t a b
/-- Deep equality of structs, field by field. -/
def deepEqualFields : (fs : Fields) → fs.denote → fs.denote → Bool
  | .nil, _, _ => true
  | .cons _ _ t rest, (x, xs), (y, ys) => deepEqual t x y && deepEqualFields rest xs ys
end

mutual
/-- Types in which no map type occurs. -/
def mapFree : Ty → Bool
  | .slice e => mapFree e
  | .array _ e => mapFree e
  | .struct fs => mapFreeFields fs
  | .map _ _ => false
  | .ptr e => mapFree e
  | .named t => mapFree t
  | _ => true
/-- Field lists in which no map type occurs. -/
def mapFreeFields : Fields → Bool
  | .nil => true
  | .cons _ _ t rest => mapFree t && mapFreeFields rest
end

/-- The bytes of a stream of key/value pairs: key, value, key, value, with nothing between. -/
def wireBytes {κ ν : Type} : List (WirePair κ ν) → List Byte
  | [] => []
  | p :: ps => p.keyBytes ++ p.valBytes ++ wireBytes ps

/-- A decoder whose result determines the bytes it consumed: two successful runs with equal
results (under `eqv`) consumed the same bytes. -/
def Unambiguous {α : Type} (f : α → List Byte → Outcome α) (eqv : α → α → Bool) : Prop :=
  ∀ v1 v2 b1 b2, (f v1 b1).err = none → (f v2 b2).err = none →
    eqv (f v1 b1).val (f v2 b2).val = true →
    ∃ c, b1 = c ++ (f v1 b1).rest ∧ b2 = c ++ (f v2 b2).rest

/-- The `k` little-endian bytes of a number (`binary.LittleEndian.PutUintN`); the number is
taken modulo `256 ^ k`. -/
def leBytes : Nat → Nat → List Byte
  | 0, _ => []
  | k + 1, n => ⟨n % 256, Nat.mod_lt n (by decide)⟩ :: leBytes k (n / 256)

/-- Concatenation of encoded items, with nothing between them. -/
def concatBytes : List (List Byte) → List Byte
  | [] => []
  | x :: xs => x ++ concatBytes xs

/-- Lexicographic order on byte strings, a beginning of a string coming before the string. -/
def byteLexLe : List Byte → List Byte → Bool
  | [], _ => true
  | _ :: _, [] => false
  | a :: as, b :: bs => decide (a.val < b.val) || (decide (a = b) && byteLexLe as bs)

/-- Whether a value of pointer or interface kind is nil. -/
def isNil : (t : Ty) → t.denote → Bool
  | .ptr _, v => v.isNone
  | .iface, v => v.isNone
  | .named t, v => isNil t v
  | _, _ => false

mutual
/-- Modelled from the spec: the encoder behind `Marshal` (`encode.go`), which is not among the
sources.  It follows the wire-format table of the spec: a bool is one byte 0 or 1; an integer
is its width/8 little-endian bytes, two's complement when signed; a byte blob, a string, a
sequence and an array are a 4-byte little-endian count and then the elements; a map is the
count and then the pairs in ascending order of the encoded key; a record is its fields in
declaration order without the fields that are unexported or tagged `-`; an `optional` field
of pointer or interface kind is a presence flag and then the value if present; a pointer is
transparent.  Where the spec leaves the encoder undefined or makes it fail (a nil pointer
outside an optional field, an interface value, an unsupported kind) no bytes are produced;
such values are outside `Canon`. -/
def encode : (t : Ty) → t.denote → List Byte
  | .bool, v => [if v then 1 else 0]
  | .int w, v => leBytes w.bytes (v % 2 ^ (8 * w.bytes)).toNat
  | .uint w, v => leBytes w.bytes v
  | .slice e, v =>
    match v with
    | none => leBytes 4 0
    | some xs => leBytes 4 xs.length ++ concatBytes (xs.map (encode e))
  | .array _ e, v => leBytes 4 v.length ++ concatBytes (v.map (encode e))
  | .string, v => leBytes 4 v.length ++ v
  | .struct fs, v => encodeFields fs v
  | .map k e, v =>
    match v with
    | none => leBytes 4 0
    | some ps =>
      leBytes 4 ps.length ++
        concatBytes ((ps.insertionSort
          (fun p q => byteLexLe (encode k p.1) (encode k q.1) = true)).map
            (fun p => encode k p.1 ++ encode e p.2))
  | .ptr e, v =>
    match v with
    | none => []
    | some x => encode e x
  | .iface, _ => []
  | .other _, _ => []
  | .named t, v => encode t v
/-- Modelled from the spec: the encoder of a record, field by field. -/
def encodeFields : (fs : Fields) → fs.denote → List Byte
  | .nil, _ => []
  | .cons exported tag t rest, (x, xs) =>
    if !exported || tag = "-" then encodeFields rest xs
    else if isNullable t && tag = "optional" then
      (if isNil t x then [0] else 1 :: encode t x) ++ encodeFields rest xs
    else encode t x ++ encodeFields rest xs
end

/-- Modelled from the spec: `Marshal`, the bytes the walker has written. -/
def Marshal (t : Ty) (v : t.denote) : List Byte := encode t v

mutual
/-- Types whose values hold no pointer, slice, map or interface: on them Go's `==` and deep
equality are equality of values. -/
def plain : Ty → Bool
  | .bool => true
  | .int _ => true
  | .uint _ => true
  | .string => true
  | .array _ e => plain e
  | .struct fs => plainFields fs
  | .named t => plain t
  | _ => false
/-- Field lists of plain types. -/
def plainFields : Fields → Bool
  | .nil => true
  | .cons _ _ t rest => plain t && plainFields rest
end

mutual
/-- The values the round trip ranges over: integers are in the range of their width and arrays
have their declared length (the value is of its type); every count fits the four count bytes
and every byte blob and string is at most `MaxByteSliceSize` long; slices and maps are not
nil; a pointer is nil only in an `optional` field; map keys are of a plain type and pairwise
different; skipped fields hold their zero value; no interface value and no value of an
unsupported kind occurs outside skipped fields. -/
def Canon : (t : Ty) → t.denote → Prop
  | .bool, _ => True
  | .int w, v => -(2 ^ (8 * w.bytes - 1) : Int) ≤ v ∧ v < (2 ^ (8 * w.bytes - 1) : Int)
  | .uint w, v => v < 2 ^ (8 * w.bytes)
  | .slice e, v =>
    match v with
    | none => False
    | some xs =>
      xs.length < 2 ^ 32 ∧ (e = .uint .w8 → xs.length ≤ MaxByteSliceSize) ∧
        ∀ x ∈ xs, Canon e x
  | .array n e, v =>
    v.length = n ∧ n < 2 ^ 32 ∧ (e = .uint .w8 → n ≤ MaxByteSliceSize) ∧ ∀ x ∈ v, Canon e x
  | .string, v => v.length ≤ MaxByteSliceSize
  | .struct fs, v => CanonFields fs v
  | .map k e, v =>
    match v with
    | none => False
    | some ps =>
      ps.length < 2 ^ 32 ∧ plain k = true ∧
        ps.Pairwise (fun p q => keyEq k p.1 q.1 = false) ∧
        ∀ p ∈ ps, Canon k p.1 ∧ Canon e p.2
  | .ptr e, v =>
    match v with
    | none => False
    | some x => Canon e x
  | .iface, _ => False
  | .other _, _ => False
  | .named t, v => Canon t v
/-- The records the round trip ranges over. -/
def CanonFields : (fs : Fields) → fs.denote → Prop
  | .nil, _ => True
  | .cons exported tag t rest, (x, xs) =>
    (if !exported || tag = "-" then x = zero t
      else if isNullable t && tag = "optional" then isNil t x = true ∨ Canon t x
      else Canon t x) ∧ CanonFields rest xs
end

/-- A decoder `f` with fresh target `z` undoes the encoder `enc` on the values that satisfy
`ok`: from the encoding followed by any bytes it succeeds, leaves those bytes unread and
yields a value that is equal under `eqv` to the encoded one, and the very same value when
`exact` holds. -/
def RoundTrips {α : Type} (f : α → List Byte → Outcome α) (z : α) (enc : α → List Byte)
    (ok : α → Prop) (eqv : α → α → Bool) (exact : Prop) : Prop :=
  ∀ v rest, ok v →
    ∃ v', f z (enc v ++ rest) = ⟨none, v', rest⟩ ∧ eqv v' v = true ∧ (exact → v' = v)

/-- The part of `decodeSlice` after the byte fast path: the general rule for a sequence, which
reads the count and then decodes that many elements one by one. -/
def decodeSliceGeneral (e : Ty) (v : (Ty.slice e).denote) (inp : List Byte) :
    Outcome (Ty.slice e).denote :=
  let rl := readUint32 inp
  match rl.err with
  | some err => ⟨some err, v, rl.rest⟩
  | none =>
    let r := decodeElems (decode e) (zero e) rl.val [] rl.rest
    match r.err with
    | some err => ⟨some err, v, r.rest⟩
    | none => ⟨none, some r.val, r.rest⟩

/-- The method `Decoder.Decode` on a pointer to a target of type `t` holding `v`, the reader
being at `inp`. -/
def Decoder.Decode (t : Ty) (v : t.denote) (inp : List Byte) : Outcome t.denote :=
  let r := decode t v inp
  match r.err with
  | some e => ⟨some e, r.val, r.rest⟩
  | none => ⟨none, r.val, r.rest⟩

/-- The kinds whose decoder stores into its target in one step at the end: bool, fixed-width
integers, string, slice and map. -/
def storesAtEnd : Ty → Bool
  | .bool => true
  | .int _ => true
  | .uint _ => true
  | .string => true
  | .slice _ => true
  | .map _ _ => true
  | .named t => storesAtEnd t
  | _ => false

/-! ## Reading primitives -/

theorem readFull_ok {n : Nat} {inp : List Byte} (h : n ≤ inp.length) :
    readFull n inp = ⟨none, inp.take n, inp.drop n⟩ := by
  simp [readFull, h]

theorem readFull_short {n : Nat} {inp : List Byte} (h : inp.length < n) :
    readFull n inp = ⟨some (if inp = [] then .eof else .unexpectedEOF),
      inp ++ List.replicate (n - inp.length) 0, []⟩ := by
  have h1 : ¬ n ≤ inp.length := Nat.not_le.mpr h
  by_cases h2 : inp = []
  · subst h2
    have h3 : n ≠ 0 := by
      intro h0
      simp [h0] at h
    simp [readFull, h3]
  · simp [readFull, h1, h2]

theorem readFull_err_none {n : Nat} {inp : List Byte} (h : (readFull n inp).err = none) :
    n ≤ inp.length := by
  by_contra hn
  rw [readFull_short (Nat.not_le.mp hn)] at h
  simp at h

theorem readFull_append {n : Nat} {inp : List Byte} (e : List Byte)
    (h : (readFull n inp).err = none) :
    readFull n (inp ++ e) = ⟨none, (readFull n inp).val, (readFull n inp).rest ++ e⟩ := by
  have hn := readFull_err_none h
  have hn2 : n ≤ (inp ++ e).length := by
    simp only [List.length_append]
    omega
  rw [readFull_ok hn, readFull_ok hn2, List.take_append_of_le_length hn,
    List.drop_append_of_le_length hn]

theorem decodeBool_framed : Framed decodeBool := by
  intro v inp e h
  unfold decodeBool at h ⊢
  cases hr : (readFull 1 inp).err with
  | some x => simp [hr] at h
  | none =>
    rw [readFull_append e hr]
    simp only [hr] at h ⊢
    split <;> simp_all
    split <;> simp_all

theorem readUint32_append {inp : List Byte} (e : List Byte) (h : (readUint32 inp).err = none) :
    readUint32 (inp ++ e) = ⟨none, (readUint32 inp).val, (readUint32 inp).rest ++ e⟩ := by
  unfold readUint32 at h ⊢
  cases hr : (readFull 4 inp).err with
  | some x => simp [hr] at h
  | none =>
    rw [readFull_append e hr]
    simp [hr]

theorem decodeByteSlice_append {inp : List Byte} (e : List Byte)
    (h : (decodeByteSlice inp).err = none) :
    decodeByteSlice (inp ++ e)
      = ⟨none, (decodeByteSlice inp).val, (decodeByteSlice inp).rest ++ e⟩ := by
  unfold decodeByteSlice at h ⊢
  cases hr : (readUint32 inp).err with
  | some x => simp [hr] at h
  | none =>
    rw [readUint32_append e hr]
    simp only [hr] at h ⊢
    by_cases hm : (readUint32 inp).val > MaxByteSliceSize
    · simp [hm] at h
    · simp only [hm, if_false] at h ⊢
      cases hb : (readFull (readUint32 inp).val (readUint32 inp).rest).err with
      | some x => simp [hb] at h
      | none =>
        rw [readFull_append e hb]

theorem decodeElems_framed {α : Type} {f : α → List Byte → Outcome α} (hf : Framed f) (z : α)
    (n : Nat) : ∀ (acc : List α) (inp e : List Byte), (decodeElems f z n acc inp).err = none →
      decodeElems f z n acc (inp ++ e)
        = ⟨none, (decodeElems f z n acc inp).val, (decodeElems f z n acc inp).rest ++ e⟩ := by
  induction n with
  | zero =>
    intro acc inp e _
    simp [decodeElems]
  | succ n ih =>
    intro acc inp e h
    simp only [decodeElems] at h ⊢
    cases hr : (f z inp).err with
    | some x => simp [hr] at h
    | none =>
      rw [hf z inp e hr]
      simp only [hr] at h ⊢
      exact ih _ _ e h

theorem decodeInPlace_framed {α : Type} {f : α → List Byte → Outcome α} (hf : Framed f) :
    Framed (decodeInPlace f) := by
  intro xs
  induction xs with
  | nil =>
    intro inp e _
    simp [decodeInPlace]
  | cons x xs ih =>
    intro inp e h
    simp only [decodeInPlace] at h ⊢
    cases hr : (f x inp).err with
    | some y => simp [hr] at h
    | none =>
      rw [hf x inp e hr]
      simp only [hr] at h ⊢
      rw [ih _ e h]

theorem decodePairs_framed {κ ν : Type} (eq : κ → κ → Bool) {fk : κ → List Byte → Outcome κ}
    {fv : ν → List Byte → Outcome ν} (hk : Framed fk) (hv : Framed fv) (zk : κ) (zv : ν)
    (n : Nat) : ∀ (m : List (κ × ν)) (inp e : List Byte),
      (decodePairs eq fk zk fv zv n m inp).err = none →
      decodePairs eq fk zk fv zv n m (inp ++ e)
        = ⟨none, (decodePairs eq fk zk fv zv n m inp).val,
            (decodePairs eq fk zk fv zv n m inp).rest ++ e⟩ := by
  induction n with
  | zero =>
    intro m inp e _
    simp [decodePairs]
  | succ n ih =>
    intro m inp e h
    simp only [decodePairs] at h ⊢
    cases hr : (fk zk inp).err with
    | some x => simp [hr] at h
    | none =>
      rw [hk zk inp e hr]
      simp only [hr] at h ⊢
      cases hr2 : (fv zv (fk zk inp).rest).err with
      | some x => simp [hr2] at h
      | none =>
        rw [hv zv _ e hr2]
        simp only [hr2] at h ⊢
        exact ih _ _ e h

/-! ## The walker reads no further than it consumes -/

theorem decode_slice_general (e : Ty) (h : e ≠ .uint .w8) (v : (Ty.slice e).denote)
    (inp : List Byte) :
    decode (.slice e) v inp =
      (let rl := readUint32 inp
       match rl.err with
       | some err => ⟨some err, v, rl.rest⟩
       | none =>
         let r := decodeElems (decode e) (zero e) rl.val [] rl.rest
         match r.err with
         | some err => ⟨some err, v, r.rest⟩
         | none => ⟨none, some r.val, r.rest⟩) := by
  cases e with
  | uint w => cases w <;> first | exact absurd rfl h | rfl
  | _ => rfl

theorem decode_array_general (n : Nat) (e : Ty) (h : e ≠ .uint .w8) (v : (Ty.array n e).denote)
    (inp : List Byte) :
    decode (.array n e) v inp =
      (let rl := readUint32 inp
       match rl.err with
       | some err => ⟨some err, v, rl.rest⟩
       | none =>
         if rl.val ≠ n then ⟨some .lengthMismatch, v, rl.rest⟩
         else decodeInPlace (decode e) v rl.rest) := by
  cases e with
  | uint w => cases w <;> first | exact absurd rfl h | rfl
  | _ => rfl

theorem decode_named (t : Ty) (h : t ≠ .slice (.uint .w8)) (v : (Ty.named t).denote)
    (inp : List Byte) : decode (.named t) v inp = decode t v inp := by
  cases t with
  | slice e =>
    have he : e ≠ .uint .w8 := fun he => h (by rw [he])
    rw [decode_slice_general e he]
    rfl
  | _ => rfl

theorem decode_named_byteSlice (v : Option (List Nat)) (inp : List Byte) :
    decode (.named (.slice (.uint .w8))) v inp = decodeSliceGeneral (.uint .w8) v inp := rfl

theorem decode_uint_framed (w : Width) : Framed (decode (.uint w)) := by
  intro v inp e h
  simp only [decode] at h ⊢
  cases hr : (readFull w.bytes inp).err with
  | some x => simp [hr] at h
  | none =>
    rw [readFull_append e hr]

theorem sliceGeneral_framed (e : Ty) (hf : Framed (decode e)) :
    Framed (decodeSliceGeneral e) := by
  intro v inp x h
  simp only [decodeSliceGeneral] at h ⊢
  cases hr : (readUint32 inp).err with
  | some y => simp [hr] at h
  | none =>
    rw [readUint32_append x hr]
    simp only [hr] at h ⊢
    cases hs : (decodeElems (decode e) (zero e) (readUint32 inp).val []
        (readUint32 inp).rest).err with
    | some y => simp [hs] at h
    | none =>
      rw [decodeElems_framed hf (zero e) _ _ _ x hs]

mutual
theorem decode_framed : (t : Ty) → Framed (decode t)
  | .bool => by
    intro v inp e h
    simp only [decode] at h ⊢
    exact decodeBool_framed v inp e h
  | .int w => by
    intro v inp e h
    simp only [decode] at h ⊢
    cases hr : (readFull w.bytes inp).err with
    | some x => simp [hr] at h
    | none =>
      rw [readFull_append e hr]
  | .uint w => by
    intro v inp e h
    simp only [decode] at h ⊢
    cases hr : (readFull w.bytes inp).err with
    | some x => simp [hr] at h
    | none =>
      rw [readFull_append e hr]
  | .slice t => by
    intro v inp e h
    by_cases he : t = .uint .w8
    · subst he
      simp only [decode] at h ⊢
      cases hr : (decodeByteSlice inp).err with
      | some x => simp [hr] at h
      | none =>
        rw [decodeByteSlice_append e hr]
    · simp only [decode_slice_general t he] at h ⊢
      cases hr : (readUint32 inp).err with
      | some x => simp [hr] at h
      | none =>
        rw [readUint32_append e hr]
        simp only [hr] at h ⊢
        cases hs : (decodeElems (decode t) (zero t) (readUint32 inp).val []
            (readUint32 inp).rest).err with
        | some x => simp [hs] at h
        | none =>
          rw [decodeElems_framed (decode_framed t) (zero t) _ _ _ e hs]
  | .array n t => by
    intro v inp e h
    by_cases he : t = .uint .w8
    · subst he
      simp only [decode] at h ⊢
      cases hr : (decodeByteSlice inp).err with
      | some x => simp [hr] at h
      | none =>
        rw [decodeByteSlice_append e hr]
        simp only [hr] at h ⊢
        by_cases hl : (decodeByteSlice inp).val.length = n
        · simp [hl]
        · simp [hl] at h
    · simp only [decode_array_general n t he] at h ⊢
      cases hr : (readUint32 inp).err with
      | some x => simp [hr] at h
      | none =>
        rw [readUint32_append e hr]
        simp only [hr] at h ⊢
        by_cases hl : (readUint32 inp).val = n
        · simp only [hl, ne_eq, not_true_eq_false, if_false] at h ⊢
          exact decodeInPlace_framed (decode_framed t) v _ e h
        · simp [hl] at h
  | .string => by
    intro v inp e h
    simp only [decode] at h ⊢
    cases hr : (decodeByteSlice inp).err with
    | some x => simp [hr] at h
    | none =>
      rw [decodeByteSlice_append e hr]
  | .struct fs => by
    intro v inp e h
    simp only [decode] at h ⊢
    exact decodeStruct_framed fs v inp e h
  | .map k t => by
    intro v inp e h
    simp only [decode] at h ⊢
    cases hr : (readUint32 inp).err with
    | some x => simp [hr] at h
    | none =>
      rw [readUint32_append e hr]
      simp only [hr] at h ⊢
      cases hs : (decodePairs (keyEq k) (decode k) (zero k) (decode t) (zero t)
          (readUint32 inp).val [] (readUint32 inp).rest).err with
      | some x => simp [hs] at h
      | none =>
        rw [decodePairs_framed (keyEq k) (decode_framed k) (decode_framed t) (zero k) (zero t)
          _ _ _ e hs]
  | .ptr t => by
    intro v inp e h
    simp only [decode] at h ⊢
    rw [decode_framed t _ inp e h]
  | .iface => by
    intro v inp e h
    simp [decode] at h
  | .other k => by
    intro v inp e h
    simp [decode] at h
  | .named t => by
    by_cases ht : t = .slice (.uint .w8)
    · subst ht
      intro v inp e h
      simp only [decode_named_byteSlice] at h ⊢
      exact sliceGeneral_framed (.uint .w8) (decode_uint_framed .w8) v inp e h
    · intro v inp e h
      simp only [decode_named t ht] at h ⊢
      exact decode_framed t v inp e h
theorem decodeStruct_framed : (fs : Fields) → Framed (decodeStruct fs)
  | .nil => by
    intro v inp e _
    simp [decodeStruct]
  | .cons exported tag t rest => by
    intro v inp e h
    obtain ⟨x, xs⟩ := v
    simp only [decodeStruct] at h ⊢
    by_cases hskip : (!exported || decide (tag = "-")) = true
    · simp only [hskip, if_true] at h ⊢
      rw [decodeStruct_framed rest xs inp e h]
    · simp only [hskip, if_false, Bool.false_eq_true] at h ⊢
      by_cases hopt : (isNullable t && decide (tag = "optional")) = true
      · simp only [hopt, if_true] at h ⊢
        cases hb : (decodeBool false inp).err with
        | some y => simp [hb] at h
        | none =>
          rw [decodeBool_framed false inp e hb]
          simp only [hb] at h ⊢
          cases hv : (decodeBool false inp).val with
          | false =>
            simp only [hv, Bool.not_false, if_true] at h ⊢
            rw [decodeStruct_framed rest xs _ e h]
          | true =>
            simp only [hv, Bool.not_true, Bool.false_eq_true, if_false] at h ⊢
            cases hd : (decode t x (decodeBool false inp).rest).err with
            | some y => simp [hd] at h
            | none =>
              rw [decode_framed t x _ e hd]
              simp only [hd] at h ⊢
              rw [decodeStruct_framed rest xs _ e h]
      · simp only [hopt, if_false, Bool.not_true, Bool.false_eq_true] at h ⊢
        cases hd : (decode t x inp).err with
        | some y => simp [hd] at h
        | none =>
          rw [decode_framed t x _ e hd]
          simp only [hd] at h ⊢
          rw [decodeStruct_framed rest xs _ e h]
end

/-! ## Booleans, integers and the byte-blob ceiling -/

theorem readFull_cons_one (b : Byte) (rest : List Byte) :
    readFull 1 (b :: rest) = ⟨none, [b], rest⟩ := by
  simp [readFull]

theorem readUint32_four (b0 b1 b2 b3 : Byte) (rest : List Byte) :
    readUint32 (b0 :: b1 :: b2 :: b3 :: rest) = ⟨none, leNat [b0, b1, b2, b3], rest⟩ := by
  simp [readUint32, readFull]

theorem Width.bytes_pos (w : Width) : 0 < w.bytes := by
  cases w <;> decide

theorem leNat_eq_sum (bs : List Byte) :
    leNat bs = ∑ i : Fin bs.length, (bs.get i).val * 256 ^ i.val := by
  induction bs with
  | nil => simp [leNat]
  | cons b bs ih =>
    simp only [leNat, List.length_cons, Fin.sum_univ_succ, ih, Finset.mul_sum]
    simp [pow_succ, mul_comm, mul_left_comm, mul_assoc]

theorem decodeBool_cons (v : Bool) (b : Byte) (rest : List Byte) :
    decodeBool v (b :: rest) =
      if b = 1 then ⟨none, true, rest⟩
      else if b = 0 then ⟨none, false, rest⟩
      else ⟨some .invalidBool, v, rest⟩ := by
  simp [decodeBool, readFull, leNat, Fin.ext_iff]

/-- C5: decoding a bool from an input that starts with byte `b` consumes exactly that byte; it
yields true for 1 and false for 0, and for every other byte it fails with the invalid-boolean
error and leaves the target as it was. -/
theorem decode_bool_spec (v : Bool) (b : Byte) (rest : List Byte) :
    decode .bool v (b :: rest) =
      if b = 1 then ⟨none, true, rest⟩
      else if b = 0 then ⟨none, false, rest⟩
      else ⟨some .invalidBool, v, rest⟩ := by
  simp only [decode]
  exact decodeBool_cons v b rest

theorem decode_uint_closed (w : Width) (v : Nat) (inp : List Byte) :
    decode (.uint w) v inp =
      if w.bytes ≤ inp.length then ⟨none, leNat (inp.take w.bytes), inp.drop w.bytes⟩
      else ⟨some (if inp = [] then .eof else .unexpectedEOF), v, []⟩ := by
  simp only [decode]
  by_cases h : w.bytes ≤ inp.length
  · simp [h, readFull_ok h]
  · simp [h, readFull_short (Nat.not_le.mp h)]

theorem decode_int_closed (w : Width) (v : Int) (inp : List Byte) :
    decode (.int w) v inp =
      if w.bytes ≤ inp.length then
        ⟨none,
          (if 2 ^ (8 * w.bytes - 1) ≤ leNat (inp.take w.bytes)
            then (leNat (inp.take w.bytes) : Int) - 2 ^ (8 * w.bytes)
            else (leNat (inp.take w.bytes) : Int)),
          inp.drop w.bytes⟩
      else ⟨some (if inp = [] then .eof else .unexpectedEOF), v, []⟩ := by
  simp only [decode, toSigned]
  by_cases h : w.bytes ≤ inp.length
  · simp only [h, if_true, readFull_ok h]
    by_cases h3 : leNat (List.take w.bytes inp) < 2 ^ (8 * w.bytes - 1)
    · simp [h3, Nat.not_le.mpr h3]
    · simp [h3, Nat.le_of_not_lt h3]
  · simp [h, readFull_short (Nat.not_le.mp h)]

/-- C6: for every declared width N of 8, 16, 32 and 64 bits, decoding an unsigned integer
consumes exactly N/8 bytes and yields the sum of `b_i * 256 ^ i` over them; decoding a signed
integer consumes the same bytes and yields the two's-complement reading of that sum (minus
`2 ^ N` when the sum is at least `2 ^ (N - 1)`); both fail exactly when fewer than N/8 bytes
are left, with the reader's end-of-input error, consuming what was there and leaving the
target as it was.  The eight vectors are those of `TestInts`. -/
theorem decode_int_spec (N : Nat) (w : Width) (inp : List Byte)
    (hw : (N, w) ∈ [(8, Width.w8), (16, Width.w16), (32, Width.w32), (64, Width.w64)]) :
    (∀ v : Nat, decode (.uint w) v inp =
      if N / 8 ≤ inp.length then
        ⟨none, ∑ i : Fin (inp.take (N / 8)).length, ((inp.take (N / 8)).get i).val * 256 ^ i.val,
          inp.drop (N / 8)⟩
      else ⟨some (if inp = [] then .eof else .unexpectedEOF), v, []⟩) ∧
    (∀ v : Int, decode (.int w) v inp =
      if N / 8 ≤ inp.length then
        ⟨none,
          (let s := ∑ i : Fin (inp.take (N / 8)).length,
              ((inp.take (N / 8)).get i).val * 256 ^ i.val
           if 2 ^ (N - 1) ≤ s then (s : Int) - 2 ^ N else (s : Int)),
          inp.drop (N / 8)⟩
      else ⟨some (if inp = [] then .eof else .unexpectedEOF), v, []⟩) ∧
    (∀ v : Nat, (decode (.uint w) v inp).err ≠ none ↔ inp.length < N / 8) ∧
    (∀ v : Int, (decode (.int w) v inp).err ≠ none ↔ inp.length < N / 8) ∧
    decode (.int .w8) 0 [0xFF] = ⟨none, -1, []⟩ ∧
    decode (.uint .w8) 0 [0x01] = ⟨none, 1, []⟩ ∧
    decode (.int .w16) 0 [0xCC, 0xED] = ⟨none, -4660, []⟩ ∧
    decode (.uint .w16) 0 [0x34, 0x12] = ⟨none, 4660, []⟩ ∧
    decode (.int .w32) 0 [0x88, 0xA9, 0xCB, 0xED] = ⟨none, -305419896, []⟩ ∧
    decode (.uint .w32) 0 [0x78, 0x56, 0x34, 0x12] = ⟨none, 305419896, []⟩ ∧
    decode (.int .w64) 0 [0x00, 0x11, 0x32, 0x54, 0x87, 0xA9, 0xCB, 0xED]
      = ⟨none, -1311768467750121216, []⟩ ∧
    decode (.uint .w64) 0 [0x00, 0xEF, 0xCD, 0xAB, 0x78, 0x56, 0x34, 0x12]
      = ⟨none, 1311768467750121216, []⟩ := by
  have hk : N / 8 = w.bytes ∧ N = 8 * w.bytes := by
    simp only [List.mem_cons, Prod.mk.injEq, List.mem_singleton, List.mem_nil_iff,
      or_false] at hw
    rcases hw with ⟨rfl, rfl⟩ | ⟨rfl, rfl⟩ | ⟨rfl, rfl⟩ | ⟨rfl, rfl⟩ <;> decide
  obtain ⟨hk1, hk2⟩ := hk
  rw [hk1]
  refine ⟨?_, ?_, ?_, ?_, by decide, by decide, by decide, by decide, by decide, by decide,
    by decide, by decide⟩
  · intro v
    rw [decode_uint_closed, ← leNat_eq_sum]
  · intro v
    rw [decode_int_closed, ← leNat_eq_sum, hk2]
  · intro v
    rw [decode_uint_closed]
    by_cases h : w.bytes ≤ inp.length
    · simp [h]
    · simp [h, Nat.not_le.mp h]
  · intro v
    rw [decode_int_closed]
    by_cases h : w.bytes ≤ inp.length
    · simp [h]
    · simp [h, Nat.not_le.mp h]

theorem decode_int_spec_witness :
    ((64, Width.w64) ∈ [(8, Width.w8), (16, Width.w16), (32, Width.w32), (64, Width.w64)]) ∧
    decode (.uint .w64) 7 [0x00, 0xEF, 0xCD, 0xAB, 0x78, 0x56, 0x34, 0x12, 0x99]
      = ⟨none, 1311768467750121216, [0x99]⟩ ∧
    decode (.uint .w64) 7 [0x00, 0xEF, 0xCD, 0xAB] = ⟨some .unexpectedEOF, 7, []⟩ :=
  ⟨by decide, by
    rw [(decode_int_spec 64 .w64 [0x00, 0xEF, 0xCD, 0xAB, 0x78, 0x56, 0x34, 0x12, 0x99]
      (by decide)).1 7]
    decide, by
    rw [(decode_int_spec 64 .w64 [0x00, 0xEF, 0xCD, 0xAB] (by decide)).1 7]
    decide⟩

theorem decodeByteSlice_tooLong (b0 b1 b2 b3 : Byte) (rest : List Byte)
    (h : MaxByteSliceSize < leNat [b0, b1, b2, b3]) :
    decodeByteSlice (b0 :: b1 :: b2 :: b3 :: rest) = ⟨some .tooLong, [], rest⟩ := by
  simp [decodeByteSlice, readUint32_four, h]

theorem decodeElems_uint8 : ∀ (n : Nat) (acc : List Nat) (inp : List Byte),
    decodeElems (decode (.uint .w8)) (zero (.uint .w8)) n acc inp =
      if n ≤ inp.length then ⟨none, acc ++ (inp.take n).map (fun b => b.val), inp.drop n⟩
      else ⟨some .eof, acc ++ inp.map (fun b => b.val), []⟩
  | 0, acc, inp => by simp [decodeElems]
  | n + 1, acc, [] => by simp [decodeElems, decode, readFull, Width.bytes]
  | n + 1, acc, b :: rest => by
    have h1 : decode (.uint .w8) (zero (.uint .w8)) (b :: rest) = ⟨none, b.val, rest⟩ := by
      simp [decode, readFull, Width.bytes, leNat]
    simp only [decodeElems, h1, decodeElems_uint8 n (acc ++ [b.val]) rest, List.length_cons,
      Nat.add_le_add_iff_right, List.take_succ_cons, List.map_cons, List.drop_succ_cons,
      List.append_assoc, List.singleton_append]

theorem sliceGeneral_uint8 (v : Option (List Nat)) (b0 b1 b2 b3 : Byte) (rest : List Byte) :
    decodeSliceGeneral (.uint .w8) v (b0 :: b1 :: b2 :: b3 :: rest) =
      if leNat [b0, b1, b2, b3] ≤ rest.length then
        ⟨none, some ((rest.take (leNat [b0, b1, b2, b3])).map (fun b => b.val)),
          rest.drop (leNat [b0, b1, b2, b3])⟩
      else ⟨some .eof, v, []⟩ := by
  simp only [decodeSliceGeneral, readUint32_four, decodeElems_uint8, List.nil_append]
  by_cases h : leNat [b0, b1, b2, b3] ≤ rest.length
  · simp [h]
  · simp [h]

theorem decode_slice_namedByte (v : Option (List Nat)) (inp : List Byte) :
    decode (.slice (.named (.uint .w8))) v inp = decodeSliceGeneral (.uint .w8) v inp := by
  rw [decode_slice_general (.named (.uint .w8)) (by simp)]
  rfl

/-- C3, as stated, fails for byte slices and byte arrays of a defined type: into a target of
the defined slice type `type Blob []byte` a length field of 104857601 is answered with
`io.EOF`, also when two bytes follow, which are consumed; into a `[]MyByte` with
`type MyByte byte` a length field of 2^31 is answered with `io.EOF`; into a `[3]MyByte` it is
answered with the length mismatch.  None of them is the oversized-length error. -/
theorem byte_blob_ceiling_counterexample :
    MaxByteSliceSize < leNat [1, 0, 0x40, 6] ∧
    MaxByteSliceSize < leNat [0, 0, 0, 0x80] ∧
    decode (.named (.slice (.uint .w8))) none [1, 0, 0x40, 6] = ⟨some .eof, none, []⟩ ∧
    decode (.named (.slice (.uint .w8))) none [1, 0, 0x40, 6, 7, 8] = ⟨some .eof, none, []⟩ ∧
    decode (.slice (.named (.uint .w8))) none [0, 0, 0, 0x80] = ⟨some .eof, none, []⟩ ∧
    decode (.array 3 (.named (.uint .w8))) [0, 0, 0] [0, 0, 0, 0x80, 9]
      = ⟨some .lengthMismatch, [0, 0, 0], [9]⟩ := by
  decide

/-- C3, amended: when the four-byte little-endian length field exceeds `MaxByteSliceSize`
(100 MiB), `decodeByteSlice` fails with the oversized-length error and the unread input is
exactly what follows the four bytes, whatever and however little that is; so do the decodes
into a target of type exactly `[]byte`, into an array whose element type is exactly `byte`
(of any length, also under a defined array type) and into a string (also of a defined string
type), which leave their target as it was.  A defined slice type over `byte`, and a slice or
array whose element type is a defined byte type, take the general rule, which has no
ceiling: the slice decode reads as many one-byte elements as the field claims and fails with
`io.EOF`, the input consumed, when fewer follow; the array decode fails with the length
mismatch.  A length field of exactly 104857600 is not rejected by the ceiling check, and
with that many bytes after it the blob is read. -/
theorem byte_blob_ceiling (b0 b1 b2 b3 : Byte) (rest : List Byte) :
    (MaxByteSliceSize < leNat [b0, b1, b2, b3] →
      decodeByteSlice (b0 :: b1 :: b2 :: b3 :: rest) = ⟨some .tooLong, [], rest⟩ ∧
      (∀ v, decode (.slice (.uint .w8)) v (b0 :: b1 :: b2 :: b3 :: rest)
        = ⟨some .tooLong, v, rest⟩) ∧
      (∀ n v, decode (.array n (.uint .w8)) v (b0 :: b1 :: b2 :: b3 :: rest)
        = ⟨some .tooLong, v, rest⟩) ∧
      (∀ v, decode .string v (b0 :: b1 :: b2 :: b3 :: rest) = ⟨some .tooLong, v, rest⟩) ∧
      (∀ n v, decode (.named (.array n (.uint .w8))) v (b0 :: b1 :: b2 :: b3 :: rest)
        = ⟨some .tooLong, v, rest⟩) ∧
      (∀ v, decode (.named .string) v (b0 :: b1 :: b2 :: b3 :: rest)
        = ⟨some .tooLong, v, rest⟩) ∧
      (∀ v, decode (.named (.slice (.uint .w8))) v (b0 :: b1 :: b2 :: b3 :: rest) =
        if leNat [b0, b1, b2, b3] ≤ rest.length then
          ⟨none, some ((rest.take (leNat [b0, b1, b2, b3])).map (fun b => b.val)),
            rest.drop (leNat [b0, b1, b2, b3])⟩
        else ⟨some .eof, v, []⟩) ∧
      (∀ v, decode (.slice (.named (.uint .w8))) v (b0 :: b1 :: b2 :: b3 :: rest) =
        if leNat [b0, b1, b2, b3] ≤ rest.length then
          ⟨none, some ((rest.take (leNat [b0, b1, b2, b3])).map (fun b => b.val)),
            rest.drop (leNat [b0, b1, b2, b3])⟩
        else ⟨some .eof, v, []⟩) ∧
      (∀ n v, n ≤ MaxByteSliceSize →
        decode (.array n (.named (.uint .w8))) v (b0 :: b1 :: b2 :: b3 :: rest)
          = ⟨some .lengthMismatch, v, rest⟩)) ∧
    (leNat [b0, b1, b2, b3] = 104857600 →
      (decodeByteSlice (b0 :: b1 :: b2 :: b3 :: rest)).err ≠ some .tooLong ∧
      (104857600 ≤ rest.length →
        decodeByteSlice (b0 :: b1 :: b2 :: b3 :: rest)
          = ⟨none, rest.take 104857600, rest.drop 104857600⟩)) := by
  constructor
  · intro h
    have hb := decodeByteSlice_tooLong b0 b1 b2 b3 rest h
    refine ⟨hb, ?_, ?_, ?_, ?_, ?_, ?_, ?_, ?_⟩
    · intro v
      simp [decode, hb]
    · intro n v
      simp [decode, hb]
    · intro v
      simp [decode, hb]
    · intro n v
      rw [decode_named _ (by simp)]
      simp [decode, hb]
    · intro v
      rw [decode_named _ (by simp)]
      simp [decode, hb]
    · intro v
      rw [decode_named_byteSlice]
      exact sliceGeneral_uint8 v b0 b1 b2 b3 rest
    · intro v
      rw [decode_slice_namedByte]
      exact sliceGeneral_uint8 v b0 b1 b2 b3 rest
    · intro n v hn
      have hne : leNat [b0, b1, b2, b3] ≠ n := by omega
      simp [decode_array_general n (.named (.uint .w8)) (by simp), readUint32_four, hne]
  · intro h
    have hm : ¬ MaxByteSliceSize < 104857600 := by decide
    constructor
    · simp only [decodeByteSlice, readUint32_four, h, hm, if_false]
      by_cases hl : 104857600 ≤ rest.length
      · simp [readFull_ok hl]
      · simp only [readFull_short (Nat.not_le.mp hl)]
        split <;> simp
    · intro hl
      simp [decodeByteSlice, readUint32_four, h, hm, readFull_ok hl]

theorem byte_blob_ceiling_witness :
    MaxByteSliceSize < leNat [0, 0, 0, 0x80] ∧
    decodeByteSlice [0, 0, 0, 0x80] = ⟨some .tooLong, [], []⟩ ∧
    decode (.array 3 (.uint .w8)) [0, 0, 0] [0, 0, 0, 0x80, 1] = ⟨some .tooLong, [0, 0, 0], [1]⟩ ∧
    decode (.slice (.named (.uint .w8))) none [0, 0, 0, 0x80, 1] = ⟨some .eof, none, []⟩ :=
  ⟨by decide, ((byte_blob_ceiling 0 0 0 0x80 []).1 (by decide)).1,
    ((byte_blob_ceiling 0 0 0 0x80 [1]).1 (by decide)).2.2.1 3 [0, 0, 0], by
    rw [((byte_blob_ceiling 0 0 0 0x80 [1]).1 (by decide)).2.2.2.2.2.2.2.1 none]
    decide⟩

/-! ## Trailing data, fixed arrays, sequences and optional fields -/

theorem unmarshal_accepts_iff (t : Ty) (v : t.denote) (b : List Byte) :
    (Unmarshal t v b).err = none ↔ (decode t v b).err = none ∧ (decode t v b).rest = [] := by
  unfold Unmarshal
  cases hd : (decode t v b).err with
  | some x => simp [hd]
  | none =>
    cases hr : (decode t v b).rest with
    | nil => simp [hd, hr, Decoder.EOF]
    | cons y ys => simp [hd, hr, Decoder.EOF]

/-- C2: when `Unmarshal` accepts an input `b` for a target, then on `b` followed by one or
more extra bytes the value decode succeeds exactly as on `b`, with the same value, and leaves
the extra bytes unread, and `Unmarshal` fails with the "unexpected data" error.  So no
accepted input is a proper beginning of another accepted input. -/
theorem unmarshal_trailing_data (t : Ty) (v : t.denote) (b extra : List Byte)
    (hacc : (Unmarshal t v b).err = none) (hne : extra ≠ []) :
    (Unmarshal t v (b ++ extra)).err = some .unexpectedData ∧
      decode t v (b ++ extra) = ⟨none, (Unmarshal t v b).val, extra⟩ := by
  obtain ⟨hd, hr⟩ := (unmarshal_accepts_iff t v b).mp hacc
  have hf := decode_framed t v b extra hd
  rw [hr, List.nil_append] at hf
  have hval : (Unmarshal t v b).val = (decode t v b).val := by
    unfold Unmarshal
    simp [hd, hr, Decoder.EOF]
  refine ⟨?_, by rw [hf, hval]⟩
  unfold Unmarshal
  rw [hf]
  cases extra with
  | nil => exact absurd rfl hne
  | cons y ys => simp [Decoder.EOF]

theorem unmarshal_trailing_data_witness :
    (Unmarshal (.slice (.uint .w16)) none [1, 0, 0, 0, 0x11, 0]).err = none ∧
    ([0xAA] : List Byte) ≠ [] ∧
    (Unmarshal (.slice (.uint .w16)) none ([1, 0, 0, 0, 0x11, 0] ++ [0xAA])).err
      = some .unexpectedData ∧
    decode (.slice (.uint .w16)) none ([1, 0, 0, 0, 0x11, 0] ++ [0xAA])
      = ⟨none, (Unmarshal (.slice (.uint .w16)) none [1, 0, 0, 0, 0x11, 0]).val, [0xAA]⟩ :=
  ⟨by decide, by decide,
    unmarshal_trailing_data (.slice (.uint .w16)) none [1, 0, 0, 0, 0x11, 0] [0xAA]
      (by decide) (by decide)⟩

/-- C4: the code departs from the claim on arrays whose element type is `byte`.  A count of 6
into a `[3]byte` is answered with `io.EOF` when nothing follows the count and with
`io.ErrUnexpectedEOF` when two bytes follow, and a count of 2^31 is answered with the
oversized-length error; none of them is the length mismatch, which the same inputs get into
a `[3]uint16` and into a `[3]MyByte` with `type MyByte byte`, where the count is compared
before anything else is read. -/
theorem array_count_mismatch_counterexample :
    leNat [6, 0, 0, 0] ≠ 3 ∧
    (decode (.array 3 (.uint .w8)) [0, 0, 0] [6, 0, 0, 0]).err = some .eof ∧
    (decode (.array 3 (.uint .w8)) [0, 0, 0] [6, 0, 0, 0, 0x11, 0x22]).err
      = some .unexpectedEOF ∧
    (decode (.array 3 (.uint .w8)) [0, 0, 0] [0, 0, 0, 0x80]).err = some .tooLong ∧
    (decode (.array 3 (.uint .w16)) [0, 0, 0] [6, 0, 0, 0]).err = some .lengthMismatch ∧
    (decode (.array 3 (.named (.uint .w8))) [0, 0, 0] [6, 0, 0, 0]).err
      = some .lengthMismatch ∧
    (decode (.array 3 (.named (.uint .w8))) [0, 0, 0] [6, 0, 0, 0, 0x11, 0x22]).err
      = some .lengthMismatch ∧
    (decode (.array 3 (.named (.uint .w8))) [0, 0, 0] [0, 0, 0, 0x80]).err
      = some .lengthMismatch := by
  decide

/-- C4: what `decodeArray` does with a count that differs from the declared length.  It
always fails.  When the element type is not `byte` the error is the length mismatch whatever
follows the count, and only the count is read, as the claim says.  When the element type is
`byte` the code departs from the claim, for the blob is read before the lengths are
compared: the error is the oversized-length error when the count exceeds `MaxByteSliceSize`,
the length mismatch when at least count bytes follow, and the reader's end-of-input error
otherwise. -/
theorem array_count_mismatch (n : Nat) (b0 b1 b2 b3 : Byte) (rest : List Byte)
    (h : leNat [b0, b1, b2, b3] ≠ n) :
    (∀ (e : Ty) (v : (Ty.array n e).denote), e ≠ .uint .w8 →
      decode (.array n e) v (b0 :: b1 :: b2 :: b3 :: rest) = ⟨some .lengthMismatch, v, rest⟩) ∧
    (∀ v : (Ty.array n (.uint .w8)).denote,
      decode (.array n (.uint .w8)) v (b0 :: b1 :: b2 :: b3 :: rest) =
        if MaxByteSliceSize < leNat [b0, b1, b2, b3] then ⟨some .tooLong, v, rest⟩
        else if leNat [b0, b1, b2, b3] ≤ rest.length then
          ⟨some .lengthMismatch, v, rest.drop (leNat [b0, b1, b2, b3])⟩
        else ⟨some (if rest = [] then .eof else .unexpectedEOF), v, []⟩) := by
  constructor
  · intro e v he
    simp [decode_array_general n e he, readUint32_four, h]
  · intro v
    simp only [decode, decodeByteSlice, readUint32_four]
    by_cases hm : MaxByteSliceSize < leNat [b0, b1, b2, b3]
    · simp [hm]
    · by_cases hl : leNat [b0, b1, b2, b3] ≤ rest.length
      · simp [hm, hl, readFull_ok hl, h]
      · simp [hm, hl, readFull_short (Nat.not_le.mp hl)]

theorem array_count_mismatch_witness :
    leNat [6, 0, 0, 0] ≠ 3 ∧
    decode (.array 3 (.uint .w16)) [0, 0, 0] [6, 0, 0, 0, 1, 0, 2, 0]
      = ⟨some .lengthMismatch, [0, 0, 0], [1, 0, 2, 0]⟩ :=
  ⟨by decide,
    (array_count_mismatch 3 6 0 0 0 [1, 0, 2, 0] (by decide)).1 (.uint .w16) [0, 0, 0]
      (by simp)⟩


theorem decodeElems_iff {α : Type} (f : α → List Byte → Outcome α) (z : α) (n : Nat) :
    ∀ (acc : List α) (inp : List Byte) (ys : List α) (out : List Byte),
      decodeElems f z n acc inp = ⟨none, ys, out⟩ ↔
        ∃ xs, ys = acc ++ xs ∧ xs.length = n ∧ readsInOrder f z inp xs out := by
  induction n with
  | zero =>
    intro acc inp ys out
    simp only [decodeElems, Outcome.mk.injEq, true_and]
    constructor
    · rintro ⟨h1, h2⟩
      exact ⟨[], by simp [h1], rfl, by simp [readsInOrder, h2]⟩
    · rintro ⟨xs, h1, h2, h3⟩
      have hx : xs = [] := List.length_eq_zero.mp h2
      subst hx
      simp only [readsInOrder] at h3
      simp [h1, h3]
  | succ n ih =>
    intro acc inp ys out
    simp only [decodeElems]
    cases hr : (f z inp).err with
    | some x =>
      simp only [Outcome.mk.injEq, reduceCtorEq, false_and, false_iff, not_exists, not_and]
      intro xs _ hlen hreads
      cases xs with
      | nil => simp at hlen
      | cons y ys =>
        simp only [readsInOrder] at hreads
        rw [hr] at hreads
        simp at hreads
    | none =>
      simp only
      rw [ih]
      constructor
      · rintro ⟨xs, h1, h2, h3⟩
        refine ⟨(f z inp).val :: xs, by simp [h1], by simp [h2], ?_⟩
        exact ⟨hr, rfl, h3⟩
      · rintro ⟨xs, h1, h2, h3⟩
        cases xs with
        | nil => simp at h2
        | cons y ys =>
          simp only [readsInOrder] at h3
          obtain ⟨_, hy, h4⟩ := h3
          refine ⟨ys, by simp [h1, hy], by simpa using h2, h4⟩

/-- C9: `decodeSlice` on a non-byte sequence, over an input that starts with the four count
bytes, succeeds with value `w` and unread input `out` exactly when `w` is a non-nil slice of
exactly count elements that are the results of count consecutive element decodes from the
bytes after the count, in stream order with nothing between them, and `out` is what the last
one leaves.  The count is not bounded by the initial capacity, and an input that ends before
the last element is complete gives no successful result. -/
theorem decode_slice_count (e : Ty) (he : e ≠ .uint .w8) (v : (Ty.slice e).denote)
    (b0 b1 b2 b3 : Byte) (rest : List Byte) (w : (Ty.slice e).denote) (out : List Byte) :
    decode (.slice e) v (b0 :: b1 :: b2 :: b3 :: rest) = ⟨none, w, out⟩ ↔
      ∃ xs : List e.denote, w = some xs ∧ xs.length = leNat [b0, b1, b2, b3] ∧
        readsInOrder (decode e) (zero e) rest xs out := by
  rw [decode_slice_general e he]
  simp only [readUint32_four]
  cases hr : (decodeElems (decode e) (zero e) (leNat [b0, b1, b2, b3]) [] rest).err with
  | some x =>
    simp only [Outcome.mk.injEq, reduceCtorEq, false_and, false_iff, not_exists, not_and]
    intro xs _ hlen hreads
    have := (decodeElems_iff (decode e) (zero e) _ [] rest xs out).mpr ⟨xs, by simp, hlen, hreads⟩
    rw [this] at hr
    simp at hr
  | none =>
    simp only [Outcome.mk.injEq, true_and]
    constructor
    · rintro ⟨h1, h2⟩
      have h3 : decodeElems (decode e) (zero e) (leNat [b0, b1, b2, b3]) [] rest
          = ⟨none, (decodeElems (decode e) (zero e) (leNat [b0, b1, b2, b3]) [] rest).val,
              out⟩ := by
        rw [← h2, ← hr]
      obtain ⟨xs, hx1, hx2, hx3⟩ := (decodeElems_iff _ _ _ _ _ _ _).mp h3
      exact ⟨xs, by rw [← h1, hx1]; simp, hx2, hx3⟩
    · rintro ⟨xs, h1, h2, h3⟩
      have := (decodeElems_iff (decode e) (zero e) _ [] rest xs out).mpr ⟨xs, by simp, h2, h3⟩
      rw [this]
      simp [h1]

theorem decode_slice_count_witness :
    Ty.uint .w16 ≠ Ty.uint .w8 ∧
    (decode (.slice (.uint .w16)) none [2, 0, 0, 0, 0x11, 0, 0x22, 0] = ⟨none, some [17, 34], []⟩ ↔
      ∃ xs : List Nat, some [17, 34] = some xs ∧ xs.length = leNat [2, 0, 0, 0] ∧
        readsInOrder (decode (.uint .w16)) (zero (.uint .w16)) [0x11, 0, 0x22, 0] xs []) :=
  ⟨by simp, decode_slice_count (.uint .w16) (by simp) none 2 0 0 0 [0x11, 0, 0x22, 0]
    (some [17, 34]) []⟩

/-- C10: in `decodeStruct`, an exported field tagged `optional` whose kind is pointer or
interface first has a one-byte presence flag read: flag 0 sets the field to its zero value,
which is nil, and goes on with the next field at the byte after the flag; flag 1 decodes the
field from the bytes after the flag; any other flag byte is the invalid-boolean error and
leaves the record as it was.  On a field of any other kind the tag is ignored: the record
decodes as it does without the tag, so no flag byte is read. -/
theorem decodeStruct_optional (t : Ty) (rest : Fields) (x : t.denote) (xs : rest.denote) :
    (isNullable t = true → ∀ (b : Byte) (inp : List Byte),
      decodeStruct (.cons true "optional" t rest) (x, xs) (b :: inp) =
        (if b = 0 then
          ⟨(decodeStruct rest xs inp).err, (zero t, (decodeStruct rest xs inp).val),
            (decodeStruct rest xs inp).rest⟩
        else if b = 1 then
          (match (decode t x inp).err with
            | some e => ⟨some e, ((decode t x inp).val, xs), (decode t x inp).rest⟩
            | none =>
              ⟨(decodeStruct rest xs (decode t x inp).rest).err,
                ((decode t x inp).val, (decodeStruct rest xs (decode t x inp).rest).val),
                (decodeStruct rest xs (decode t x inp).rest).rest⟩)
        else ⟨some .invalidBool, (x, xs), inp⟩)) ∧
    (isNullable t = false → ∀ inp : List Byte,
      decodeStruct (.cons true "optional" t rest) (x, xs) inp
        = decodeStruct (.cons true "" t rest) (x, xs) inp) ∧
    (∀ e : Ty, zero (.ptr e) = none) ∧ zero .iface = none := by
  refine ⟨?_, ?_, fun _ => rfl, rfl⟩
  · intro hn b inp
    have hb := decodeBool_cons false b inp
    by_cases h0 : b = 0
    · subst h0
      simp [decodeStruct, hn, hb]
    · by_cases h1 : b = 1
      · subst h1
        cases hd : (decode t x inp).err <;> simp [decodeStruct, hn, hb, hd]
      · simp [decodeStruct, hn, hb, h0, h1]
  · intro hn inp
    simp [decodeStruct, hn]

theorem decodeStruct_optional_witness :
    isNullable (.ptr .string) = true ∧
    decodeStruct (.cons true "optional" (.ptr .string) .nil) (some [0x41], ()) [0, 0x7F]
      = ⟨none, (none, ()), [0x7F]⟩ :=
  ⟨rfl, by
    have h := (decodeStruct_optional (.ptr .string) .nil (some [0x41]) ()).1 rfl 0 [0x7F]
    simpa [decodeStruct, zero] using h⟩

/-! ## Maps: the last writer wins -/

theorem listAll2_symm {α : Type} (p : α → α → Bool) :
    ∀ xs ys : List α, (∀ x ∈ xs, ∀ y, p x y = true → p y x = true) →
      listAll2 p xs ys = true → listAll2 p ys xs = true
  | [], [], _, _ => rfl
  | [], _ :: _, _, h => by simp [listAll2] at h
  | _ :: _, [], _, h => by simp [listAll2] at h
  | x :: xs, y :: ys, hp, h => by
    simp only [listAll2, Bool.and_eq_true] at h ⊢
    exact ⟨hp x (List.mem_cons_self _ _) y h.1,
      listAll2_symm p xs ys (fun a ha => hp a (List.mem_cons_of_mem _ ha)) h.2⟩

theorem listAll2_trans {α : Type} (p : α → α → Bool) :
    ∀ xs ys zs : List α, (∀ x ∈ xs, ∀ y z, p x y = true → p y z = true → p x z = true) →
      listAll2 p xs ys = true → listAll2 p ys zs = true → listAll2 p xs zs = true
  | [], [], [], _, _, _ => rfl
  | [], [], _ :: _, _, _, h => by simp [listAll2] at h
  | [], _ :: _, _, _, h, _ => by simp [listAll2] at h
  | _ :: _, [], _, _, h, _ => by simp [listAll2] at h
  | _ :: _, _ :: _, [], _, _, h => by simp [listAll2] at h
  | x :: xs, y :: ys, z :: zs, hp, h1, h2 => by
    simp only [listAll2, Bool.and_eq_true] at h1 h2 ⊢
    exact ⟨hp x (List.mem_cons_self _ _) y z h1.1 h2.1,
      listAll2_trans p xs ys zs (fun a ha => hp a (List.mem_cons_of_mem _ ha)) h1.2 h2.2⟩

mutual
theorem keyEq_symm : (t : Ty) → ∀ a b : t.denote, keyEq t a b = true → keyEq t b a = true
  | .bool, a, b, h => by simp only [keyEq, decide_eq_true_eq] at h ⊢; exact h.symm
  | .int _, a, b, h => by simp only [keyEq, decide_eq_true_eq] at h ⊢; exact h.symm
  | .uint _, a, b, h => by simp only [keyEq, decide_eq_true_eq] at h ⊢; exact h.symm
  | .slice _, a, b, h => by simp [keyEq] at h
  | .array _ e, a, b, h => by
    simp only [keyEq] at h ⊢
    exact listAll2_symm _ a b (fun x _ y => keyEq_symm e x y) h
  | .string, a, b, h => by simp only [keyEq, decide_eq_true_eq] at h ⊢; exact h.symm
  | .struct fs, a, b, h => by
    simp only [keyEq] at h ⊢
    exact keyEqFields_symm fs a b h
  | .map _ _, a, b, h => by simp [keyEq] at h
  | .ptr _, a, b, h => by
    simp only [keyEq, Bool.and_eq_true] at h ⊢
    exact ⟨h.2, h.1⟩
  | .iface, a, b, h => by simp only [keyEq, decide_eq_true_eq] at h ⊢; exact h.symm
  | .other _, a, b, h => by simp only [keyEq, decide_eq_true_eq] at h ⊢; exact h.symm
  | .named t, a, b, h => by
    simp only [keyEq] at h ⊢
    exact keyEq_symm t a b h
theorem keyEqFields_symm : (fs : Fields) → ∀ a b : fs.denote,
    keyEqFields fs a b = true → keyEqFields fs b a = true
  | .nil, _, _, _ => rfl
  | .cons _ _ t rest, (x, xs), (y, ys), h => by
    simp only [keyEqFields, Bool.and_eq_true] at h ⊢
    exact ⟨keyEq_symm t x y h.1, keyEqFields_symm rest xs ys h.2⟩
end

mutual
theorem keyEq_trans : (t : Ty) → ∀ a b c : t.denote,
    keyEq t a b = true → keyEq t b c = true → keyEq t a c = true
  | .bool, a, b, c, h1, h2 => by
    simp only [keyEq, decide_eq_true_eq] at h1 h2 ⊢; exact h1.trans h2
  | .int _, a, b, c, h1, h2 => by
    simp only [keyEq, decide_eq_true_eq] at h1 h2 ⊢; exact h1.trans h2
  | .uint _, a, b, c, h1, h2 => by
    simp only [keyEq, decide_eq_true_eq] at h1 h2 ⊢; exact h1.trans h2
  | .slice _, a, b, c, h1, _ => by simp [keyEq] at h1
  | .array _ e, a, b, c, h1, h2 => by
    simp only [keyEq] at h1 h2 ⊢
    exact listAll2_trans _ a b c (fun x _ y z => keyEq_trans e x y z) h1 h2
  | .string, a, b, c, h1, h2 => by
    simp only [keyEq, decide_eq_true_eq] at h1 h2 ⊢; exact h1.trans h2
  | .struct fs, a, b, c, h1, h2 => by
    simp only [keyEq] at h1 h2 ⊢
    exact keyEqFields_trans fs a b c h1 h2
  | .map _ _, a, b, c, h1, _ => by simp [keyEq] at h1
  | .ptr _, a, b, c, h1, h2 => by
    simp only [keyEq, Bool.and_eq_true] at h1 h2 ⊢
    exact ⟨h1.1, h2.2⟩
  | .iface, a, b, c, h1, h2 => by
    simp only [keyEq, decide_eq_true_eq] at h1 h2 ⊢; exact h1.trans h2
  | .other _, a, b, c, h1, h2 => by
    simp only [keyEq, decide_eq_true_eq] at h1 h2 ⊢; exact h1.trans h2
  | .named t, a, b, c, h1, h2 => by
    simp only [keyEq] at h1 h2 ⊢
    exact keyEq_trans t a b c h1 h2
theorem keyEqFields_trans : (fs : Fields) → ∀ a b c : fs.denote,
    keyEqFields fs a b = true → keyEqFields fs b c = true → keyEqFields fs a c = true
  | .nil, _, _, _, _, _ => rfl
  | .cons _ _ t rest, (x, xs), (y, ys), (z, zs), h1, h2 => by
    simp only [keyEqFields, Bool.and_eq_true] at h1 h2 ⊢
    exact ⟨keyEq_trans t x y z h1.1 h2.1, keyEqFields_trans rest xs ys zs h1.2 h2.2⟩
end

theorem mapIndex_setMapIndex {κ ν : Type} (eq : κ → κ → Bool)
    (hs : ∀ a b, eq a b = true → eq b a = true)
    (ht : ∀ a b c, eq a b = true → eq b c = true → eq a c = true)
    (k : κ) (v : ν) (key : κ) :
    ∀ m : List (κ × ν), mapIndex eq (setMapIndex eq m k v) key =
      if eq k key then some v else mapIndex eq m key
  | [] => by simp [setMapIndex, mapIndex]
  | (k1, v1) :: m => by
    have ih := mapIndex_setMapIndex eq hs ht k v key m
    simp only [setMapIndex]
    by_cases h1 : eq k1 k = true
    · simp only [h1, if_true, mapIndex]
      by_cases h2 : eq k1 key = true
      · have h3 : eq k key = true := ht _ _ _ (hs _ _ h1) h2
        simp [h2, h3]
      · have h3 : ¬ eq k key = true := fun h => h2 (ht _ _ _ h1 h)
        simp [h2, h3]
    · simp only [h1, if_false, mapIndex, ih, Bool.false_eq_true]
      by_cases h2 : eq k1 key = true
      · have h3 : ¬ eq k key = true := fun h => h1 (ht _ _ _ h2 (hs _ _ h))
        simp [h2, h3]
      · simp [h2]

theorem keys_setMapIndex {κ ν : Type} (eq : κ → κ → Bool) (k : κ) (v : ν) :
    ∀ m : List (κ × ν), (setMapIndex eq m k v).map Prod.fst =
      if (m.map Prod.fst).any (fun a => eq a k) then m.map Prod.fst else m.map Prod.fst ++ [k]
  | [] => by simp [setMapIndex]
  | (k1, v1) :: m => by
    have ih := keys_setMapIndex eq k v m
    simp only [setMapIndex]
    by_cases h1 : eq k1 k = true
    · simp [h1]
    · simp only [h1, if_false, List.map_cons, ih, Bool.false_eq_true, List.any_cons,
        Bool.false_or]
      split <;> simp

theorem decodePairs_wire {κ ν : Type} (eq : κ → κ → Bool) {fk : κ → List Byte → Outcome κ}
    {fv : ν → List Byte → Outcome ν} (hfk : Framed fk) (hfv : Framed fv) (zk : κ) (zv : ν)
    (rest : List Byte) :
    ∀ (ps : List (WirePair κ ν)) (m : List (κ × ν)),
      (∀ p ∈ ps, fk zk p.keyBytes = ⟨none, p.key, []⟩) →
      (∀ p ∈ ps, fv zv p.valBytes = ⟨none, p.val, []⟩) →
      decodePairs eq fk zk fv zv ps.length m (wireBytes ps ++ rest) =
        ⟨none, ps.foldl (fun acc p => setMapIndex eq acc p.key p.val) m, rest⟩
  | [], m, _, _ => by simp [decodePairs, wireBytes]
  | p :: ps, m, hk, hv => by
    have hk1 := hk p (List.mem_cons_self _ _)
    have hv1 := hv p (List.mem_cons_self _ _)
    have e1 : fk zk (wireBytes (p :: ps) ++ rest)
        = ⟨none, p.key, p.valBytes ++ (wireBytes ps ++ rest)⟩ := by
      have := hfk zk p.keyBytes (p.valBytes ++ (wireBytes ps ++ rest)) (by rw [hk1])
      rw [hk1] at this
      simpa [wireBytes, List.append_assoc] using this
    have e2 : fv zv (p.valBytes ++ (wireBytes ps ++ rest))
        = ⟨none, p.val, wireBytes ps ++ rest⟩ := by
      have := hfv zv p.valBytes (wireBytes ps ++ rest) (by rw [hv1])
      rw [hv1] at this
      simpa using this
    simp only [List.length_cons, decodePairs, e1, e2, List.foldl_cons]
    exact decodePairs_wire eq hfk hfv zk zv rest ps _
      (fun q hq => hk q (List.mem_cons_of_mem _ hq))
      (fun q hq => hv q (List.mem_cons_of_mem _ hq))

theorem mapIndex_foldl {κ ν : Type} (eq : κ → κ → Bool)
    (hs : ∀ a b, eq a b = true → eq b a = true)
    (ht : ∀ a b c, eq a b = true → eq b c = true → eq a c = true) (key : κ) :
    ∀ (ps : List (WirePair κ ν)) (m : List (κ × ν)),
      mapIndex eq (ps.foldl (fun acc p => setMapIndex eq acc p.key p.val) m) key =
        match (ps.filter (fun p => eq p.key key)).getLast? with
        | some p => some p.val
        | none => mapIndex eq m key
  | [], m => by simp
  | p :: ps, m => by
    rw [List.foldl_cons, mapIndex_foldl eq hs ht key ps, mapIndex_setMapIndex eq hs ht]
    by_cases h : eq p.key key = true
    · simp only [h, if_true, List.filter_cons_of_pos, List.getLast?_cons]
      cases (List.filter (fun p => eq p.key key) ps).getLast? <;> simp
    · simp [h, List.filter_cons]

theorem keys_foldl {κ ν : Type} (eq : κ → κ → Bool) :
    ∀ (ps : List (WirePair κ ν)) (m : List (κ × ν)),
      (ps.foldl (fun acc p => setMapIndex eq acc p.key p.val) m).map Prod.fst =
        (ps.map (fun p => p.key)).foldl
          (fun acc k => if acc.any (fun a => eq a k) then acc else acc ++ [k]) (m.map Prod.fst)
  | [], m => by simp
  | p :: ps, m => by
    rw [List.foldl_cons, keys_foldl eq ps, keys_setMapIndex]
    simp only [List.map_cons, List.foldl_cons]

theorem distinct_length_le {κ : Type} (eq : κ → κ → Bool) :
    ∀ (ks acc : List κ),
      (ks.foldl (fun acc k => if acc.any (fun a => eq a k) then acc else acc ++ [k]) acc).length
        ≤ acc.length + ks.length
  | [], acc => by simp
  | k :: ks, acc => by
    rw [List.foldl_cons]
    refine le_trans (distinct_length_le eq ks _) ?_
    split
    · simp only [List.length_cons]
      omega
    · simp only [List.length_append, List.length_cons, List.length_nil]
      omega

/-- C7: on an input made of a count, then as many well-formed key/value pairs (bytes that
decode to a key and bytes that decode to a value), `decodeMap` succeeds whether or not keys
repeat and leaves what follows the pairs unread.  The map it stores binds every key to the
value of the last pair of the stream that carries that key; its keys are the distinct keys
of the stream, so its size is their number, which is at most the count. -/
theorem decodeMap_last_writer_wins (kt vt : Ty) (m0 : (Ty.map kt vt).denote)
    (b0 b1 b2 b3 : Byte) (ps : List (WirePair kt.denote vt.denote)) (rest : List Byte)
    (hc : leNat [b0, b1, b2, b3] = ps.length)
    (hk : ∀ p ∈ ps, decode kt (zero kt) p.keyBytes = ⟨none, p.key, []⟩)
    (hv : ∀ p ∈ ps, decode vt (zero vt) p.valBytes = ⟨none, p.val, []⟩) :
    ∃ m : List (kt.denote × vt.denote),
      decode (.map kt vt) m0 (b0 :: b1 :: b2 :: b3 :: (wireBytes ps ++ rest))
        = ⟨none, some m, rest⟩ ∧
      (∀ key : kt.denote, mapIndex (keyEq kt) m key =
        ((ps.filter (fun p => keyEq kt p.key key)).getLast?).map (fun p => p.val)) ∧
      m.map Prod.fst = distinctKeys (keyEq kt) (ps.map (fun p => p.key)) ∧
      m.length ≤ ps.length := by
  refine ⟨ps.foldl (fun acc p => setMapIndex (keyEq kt) acc p.key p.val) [], ?_, ?_, ?_, ?_⟩
  · simp only [decode, readUint32_four, hc]
    rw [decodePairs_wire (keyEq kt) (decode_framed kt) (decode_framed vt) (zero kt) (zero vt)
      rest ps [] hk hv]
  · intro key
    rw [mapIndex_foldl (keyEq kt) (keyEq_symm kt) (keyEq_trans kt) key ps []]
    cases (List.filter (fun p => keyEq kt p.key key) ps).getLast? <;> simp [mapIndex]
  · rw [keys_foldl]
    rfl
  · have h := keys_foldl (keyEq kt) ps []
    have h2 := distinct_length_le (keyEq kt) (ps.map (fun p => p.key)) []
    have h3 := congrArg List.length h
    simp only [List.length_map, List.map_nil, List.length_nil, Nat.zero_add] at h2 h3
    omega

theorem decodeMap_last_writer_wins_witness :
    ∃ m : List (Nat × Nat),
      decode (.map (.uint .w8) (.uint .w8)) none (2 :: 0 :: 0 :: 0 ::
          (wireBytes [⟨[7], 7, [1], 1⟩, ⟨[7], 7, [2], 2⟩] ++ [0xEE]))
        = ⟨none, some m, [0xEE]⟩ ∧
      (∀ key : Nat, mapIndex (keyEq (.uint .w8)) m key =
        (((([⟨[7], 7, [1], 1⟩, ⟨[7], 7, [2], 2⟩] : List (WirePair Nat Nat))).filter
          (fun p => keyEq (.uint .w8) p.key key)).getLast?).map (fun p => p.val)) ∧
      m.map Prod.fst = distinctKeys (keyEq (.uint .w8))
        (([⟨[7], 7, [1], 1⟩, ⟨[7], 7, [2], 2⟩] : List (WirePair Nat Nat)).map (fun p => p.key)) ∧
      m.length ≤ ([⟨[7], 7, [1], 1⟩, ⟨[7], 7, [2], 2⟩] : List (WirePair Nat Nat)).length :=
  decodeMap_last_writer_wins (.uint .w8) (.uint .w8) none 2 0 0 0
    [⟨[7], 7, [1], 1⟩, ⟨[7], 7, [2], 2⟩] [0xEE] (by decide) (by decide) (by decide)

/-! ## A decoded value determines the bytes it was decoded from (map-free types) -/

theorem leNat_lt (bs : List Byte) : leNat bs < 256 ^ bs.length := by
  induction bs with
  | nil => simp [leNat]
  | cons b bs ih =>
    simp only [leNat, List.length_cons, pow_succ]
    have := b.isLt
    omega

theorem leNat_inj : ∀ bs1 bs2 : List Byte, bs1.length = bs2.length → leNat bs1 = leNat bs2 →
    bs1 = bs2
  | [], [], _, _ => rfl
  | [], _ :: _, h, _ => by simp at h
  | _ :: _, [], h, _ => by simp at h
  | a :: as, b :: bs, hl, h => by
    simp only [leNat] at h
    have ha := a.isLt
    have hb := b.isLt
    have h1 : a.val = b.val := by omega
    have h2 : leNat as = leNat bs := by omega
    have h3 := leNat_inj as bs (by simpa using hl) h2
    rw [h3, Fin.ext h1]

theorem toSigned_inj (w : Width) (n1 n2 : Nat) (h1 : n1 < 2 ^ (8 * w.bytes))
    (h2 : n2 < 2 ^ (8 * w.bytes)) (h : toSigned w n1 = toSigned w n2) : n1 = n2 := by
  unfold toSigned at h
  have hp : (2 : Int) ^ (8 * w.bytes) = ((2 ^ (8 * w.bytes) : Nat) : Int) := by
    push_cast
    rfl
  rw [hp] at h
  have hlt : 2 ^ (8 * w.bytes - 1) < 2 ^ (8 * w.bytes) :=
    Nat.pow_lt_pow_right (by decide) (by have := w.bytes_pos; omega)
  generalize 2 ^ (8 * w.bytes) = P at *
  generalize 2 ^ (8 * w.bytes - 1) = Q at *
  split at h <;> split at h <;> omega

theorem readFull_split {n : Nat} {inp : List Byte} (h : (readFull n inp).err = none) :
    inp = (readFull n inp).val ++ (readFull n inp).rest ∧ (readFull n inp).val.length = n := by
  have hn := readFull_err_none h
  rw [readFull_ok hn]
  simp [hn]

theorem readUint32_split {inp : List Byte} (h : (readUint32 inp).err = none) :
    ∃ hdr : List Byte, hdr.length = 4 ∧ leNat hdr = (readUint32 inp).val ∧
      inp = hdr ++ (readUint32 inp).rest := by
  unfold readUint32 at h ⊢
  cases hr : (readFull 4 inp).err with
  | some x => simp [hr] at h
  | none =>
    obtain ⟨h1, h2⟩ := readFull_split hr
    simp only [hr]
    exact ⟨(readFull 4 inp).val, h2, rfl, h1⟩

theorem decodeByteSlice_split {inp : List Byte} (h : (decodeByteSlice inp).err = none) :
    ∃ hdr : List Byte, hdr.length = 4 ∧ leNat hdr = (decodeByteSlice inp).val.length ∧
      inp = hdr ++ (decodeByteSlice inp).val ++ (decodeByteSlice inp).rest := by
  unfold decodeByteSlice at h ⊢
  cases hr : (readUint32 inp).err with
  | some x => simp [hr] at h
  | none =>
    obtain ⟨hdr, h1, h2, h3⟩ := readUint32_split hr
    simp only [hr] at h ⊢
    by_cases hm : (readUint32 inp).val > MaxByteSliceSize
    · simp [hm] at h
    · simp only [hm, if_false] at h ⊢
      cases hb : (readFull (readUint32 inp).val (readUint32 inp).rest).err with
      | some x => simp [hb] at h
      | none =>
        obtain ⟨h4, h5⟩ := readFull_split hb
        refine ⟨hdr, h1, by rw [h2, h5], ?_⟩
        simp only [List.append_assoc]
        rw [← h4]
        exact h3

theorem decodeByteSlice_same {b1 b2 : List Byte} (h1 : (decodeByteSlice b1).err = none)
    (h2 : (decodeByteSlice b2).err = none)
    (hv : (decodeByteSlice b1).val = (decodeByteSlice b2).val) :
    ∃ c, b1 = c ++ (decodeByteSlice b1).rest ∧ b2 = c ++ (decodeByteSlice b2).rest := by
  obtain ⟨hdr1, ha1, ha2, ha3⟩ := decodeByteSlice_split h1
  obtain ⟨hdr2, hb1, hb2, hb3⟩ := decodeByteSlice_split h2
  have hh : hdr1 = hdr2 := leNat_inj _ _ (by rw [ha1, hb1]) (by rw [ha2, hb2, hv])
  refine ⟨hdr1 ++ (decodeByteSlice b1).val, ha3, ?_⟩
  rw [hh, hv]
  exact hb3

theorem map_val_inj : ∀ xs ys : List Byte,
    xs.map (fun b => b.val) = ys.map (fun b => b.val) → xs = ys
  | [], [], _ => rfl
  | [], _ :: _, h => by simp at h
  | _ :: _, [], h => by simp at h
  | x :: xs, y :: ys, h => by
    simp only [List.map_cons, List.cons.injEq] at h
    rw [Fin.ext h.1, map_val_inj xs ys h.2]

theorem listAll2_eq {α : Type} (p : α → α → Bool) (hp : ∀ a b, p a b = true → a = b) :
    ∀ xs ys : List α, listAll2 p xs ys = true → xs = ys
  | [], [], _ => rfl
  | [], _ :: _, h => by simp [listAll2] at h
  | _ :: _, [], h => by simp [listAll2] at h
  | x :: xs, y :: ys, h => by
    simp only [listAll2, Bool.and_eq_true] at h
    rw [hp x y h.1, listAll2_eq p hp xs ys h.2]

theorem listAll2_length {α : Type} (p : α → α → Bool) :
    ∀ xs ys : List α, listAll2 p xs ys = true → xs.length = ys.length
  | [], [], _ => rfl
  | [], _ :: _, h => by simp [listAll2] at h
  | _ :: _, [], h => by simp [listAll2] at h
  | x :: xs, y :: ys, h => by
    simp only [listAll2, Bool.and_eq_true] at h
    simp [listAll2_length p xs ys h.2]

theorem readsInOrder_same {α : Type} {f : α → List Byte → Outcome α} {eqv : α → α → Bool}
    (hf : Unambiguous f eqv) (z : α) :
    ∀ (xs ys : List α) (b1 b2 out1 out2 : List Byte),
      readsInOrder f z b1 xs out1 → readsInOrder f z b2 ys out2 → listAll2 eqv xs ys = true →
      ∃ c, b1 = c ++ out1 ∧ b2 = c ++ out2
  | [], [], b1, b2, out1, out2, h1, h2, _ => by
    simp only [readsInOrder] at h1 h2
    exact ⟨[], by simp [h1], by simp [h2]⟩
  | [], _ :: _, _, _, _, _, _, _, h => by simp [listAll2] at h
  | _ :: _, [], _, _, _, _, _, _, h => by simp [listAll2] at h
  | x :: xs, y :: ys, b1, b2, out1, out2, h1, h2, h => by
    simp only [readsInOrder] at h1 h2
    simp only [listAll2, Bool.and_eq_true] at h
    obtain ⟨e1, v1, r1⟩ := h1
    obtain ⟨e2, v2, r2⟩ := h2
    obtain ⟨c, hc1, hc2⟩ := hf z z b1 b2 e1 e2 (by rw [v1, v2]; exact h.1)
    obtain ⟨d, hd1, hd2⟩ := readsInOrder_same hf z xs ys _ _ out1 out2 r1 r2 h.2
    refine ⟨c ++ d, ?_, ?_⟩
    · rw [List.append_assoc, ← hd1]
      exact hc1
    · rw [List.append_assoc, ← hd2]
      exact hc2

theorem decodeInPlace_same {α : Type} {f : α → List Byte → Outcome α} {eqv : α → α → Bool}
    (hf : Unambiguous f eqv) : Unambiguous (decodeInPlace f) (listAll2 eqv)
  | [], [], b1, b2, _, _, _ => by
    exact ⟨[], by simp [decodeInPlace], by simp [decodeInPlace]⟩
  | [], y :: ys, b1, b2, _, h2, h => by
    simp only [decodeInPlace] at h2 h
    cases hr : (f y b2).err with
    | some e => simp [hr] at h2
    | none => simp [hr, listAll2] at h
  | x :: xs, [], b1, b2, h1, _, h => by
    simp only [decodeInPlace] at h1 h
    cases hr : (f x b1).err with
    | some e => simp [hr] at h1
    | none => simp [hr, listAll2] at h
  | x :: xs, y :: ys, b1, b2, h1, h2, h => by
    simp only [decodeInPlace] at h1 h2 h ⊢
    cases hr1 : (f x b1).err with
    | some e => simp [hr1] at h1
    | none =>
      cases hr2 : (f y b2).err with
      | some e => simp [hr2] at h2
      | none =>
        simp only [hr1, hr2] at h1 h2 h ⊢
        simp only [listAll2, Bool.and_eq_true] at h
        obtain ⟨c, hc1, hc2⟩ := hf x y b1 b2 hr1 hr2 h.1
        obtain ⟨d, hd1, hd2⟩ := decodeInPlace_same hf xs ys _ _ h1 h2 h.2
        refine ⟨c ++ d, ?_, ?_⟩
        · rw [List.append_assoc, ← hd1]
          exact hc1
        · rw [List.append_assoc, ← hd2]
          exact hc2

theorem decodeBool_split {v : Bool} {inp : List Byte} (h : (decodeBool v inp).err = none) :
    ∃ b : Byte, inp = b :: (decodeBool v inp).rest ∧
      (((decodeBool v inp).val = true ∧ b = 1) ∨ ((decodeBool v inp).val = false ∧ b = 0)) := by
  cases inp with
  | nil => simp [decodeBool, readFull] at h
  | cons b rest =>
    rw [decodeBool_cons] at h ⊢
    by_cases h1 : b = 1
    · exact ⟨b, by simp [h1], Or.inl (by simp [h1])⟩
    · by_cases h0 : b = 0
      · exact ⟨b, by simp [h0], Or.inr (by simp [h0])⟩
      · simp [h1, h0] at h

theorem decodeBool_same : Unambiguous decodeBool (fun a b => decide (a = b)) := by
  intro v1 v2 b1 b2 h1 h2 h
  obtain ⟨x, hx, hx2⟩ := decodeBool_split h1
  obtain ⟨y, hy, hy2⟩ := decodeBool_split h2
  simp only [decide_eq_true_eq] at h
  have hxy : x = y := by
    rcases hx2 with ⟨a1, a2⟩ | ⟨a1, a2⟩ <;> rcases hy2 with ⟨c1, c2⟩ | ⟨c1, c2⟩
    · rw [a2, c2]
    · rw [a1, c1] at h
      cases h
    · rw [a1, c1] at h
      cases h
    · rw [a2, c2]
  exact ⟨[x], by simpa using hx, by rw [hxy]; simpa using hy⟩

theorem pow256 (n : Nat) : 256 ^ n = 2 ^ (8 * n) := by
  rw [pow_mul]
  norm_num

theorem decode_nullable_ne_zero : (t : Ty) → isNullable t = true → ∀ (x : t.denote)
    (inp : List Byte), (decode t x inp).err = none →
    deepEqual t (zero t) (decode t x inp).val = false ∧
      deepEqual t (decode t x inp).val (zero t) = false
  | .ptr e, _, x, inp, _ => by simp [decode, zero, deepEqual]
  | .iface, _, x, inp, h => by simp [decode] at h
  | .named t, hn, x, inp, h => by
    have ht : t ≠ .slice (.uint .w8) := by
      intro ht
      rw [ht] at hn
      simp [isNullable] at hn
    simp only [isNullable] at hn
    simp only [decode_named t ht, zero, deepEqual] at h ⊢
    exact decode_nullable_ne_zero t hn x inp h
  | .bool, hn, _, _, _ => by simp [isNullable] at hn
  | .int _, hn, _, _, _ => by simp [isNullable] at hn
  | .uint _, hn, _, _, _ => by simp [isNullable] at hn
  | .slice _, hn, _, _, _ => by simp [isNullable] at hn
  | .array _ _, hn, _, _, _ => by simp [isNullable] at hn
  | .string, hn, _, _, _ => by simp [isNullable] at hn
  | .struct _, hn, _, _, _ => by simp [isNullable] at hn
  | .map _ _, hn, _, _, _ => by simp [isNullable] at hn
  | .other _, hn, _, _, _ => by simp [isNullable] at hn

theorem Outcome.eta_none {α : Type} {r : Outcome α} (h : r.err = none) :
    r = ⟨none, r.val, r.rest⟩ := by
  cases r
  simp only at h
  rw [h]

theorem decode_uint_unambiguous (w : Width) :
    Unambiguous (decode (.uint w)) (deepEqual (.uint w)) := by
  intro v1 v2 b1 b2 h1 h2 h
  simp only [decode, deepEqual, decide_eq_true_eq] at h1 h2 h ⊢
  cases hr1 : (readFull w.bytes b1).err with
  | some x => simp [hr1] at h1
  | none =>
    cases hr2 : (readFull w.bytes b2).err with
    | some x => simp [hr2] at h2
    | none =>
      simp only [hr1, hr2] at h ⊢
      obtain ⟨s1, l1⟩ := readFull_split hr1
      obtain ⟨s2, l2⟩ := readFull_split hr2
      have hv := leNat_inj _ _ (by rw [l1, l2]) h
      exact ⟨(readFull w.bytes b1).val, s1, by rw [hv]; exact s2⟩

theorem sliceGeneral_unambiguous (e : Ty) (hf : Unambiguous (decode e) (deepEqual e)) :
    Unambiguous (decodeSliceGeneral e) (deepEqual (.slice e)) := by
  intro v1 v2 b1 b2 h1 h2 h
  simp only [decodeSliceGeneral, deepEqual] at h1 h2 h ⊢
  cases hr1 : (readUint32 b1).err with
  | some x => simp [hr1] at h1
  | none =>
    cases hr2 : (readUint32 b2).err with
    | some x => simp [hr2] at h2
    | none =>
      simp only [hr1, hr2] at h1 h2 h ⊢
      cases hs1 : (decodeElems (decode e) (zero e) (readUint32 b1).val []
          (readUint32 b1).rest).err with
      | some x => simp [hs1] at h1
      | none =>
        cases hs2 : (decodeElems (decode e) (zero e) (readUint32 b2).val []
            (readUint32 b2).rest).err with
        | some x => simp [hs2] at h2
        | none =>
          simp only [hs1, hs2] at h ⊢
          obtain ⟨hdr1, a1, a2, a3⟩ := readUint32_split hr1
          obtain ⟨hdr2, c1, c2, c3⟩ := readUint32_split hr2
          obtain ⟨xs, x1, x2, x3⟩ :=
            (decodeElems_iff (decode e) (zero e) _ [] _ _ _).mp (Outcome.eta_none hs1)
          obtain ⟨ys, y1, y2, y3⟩ :=
            (decodeElems_iff (decode e) (zero e) _ [] _ _ _).mp (Outcome.eta_none hs2)
          simp only [List.nil_append] at x1 y1
          rw [x1, y1] at h
          have hlen := listAll2_length _ _ _ h
          have hh : hdr1 = hdr2 :=
            leNat_inj _ _ (by rw [a1, c1]) (by rw [a2, c2, ← x2, ← y2, hlen])
          obtain ⟨c, d1, d2⟩ := readsInOrder_same hf (zero e) xs ys _ _ _ _ x3 y3 h
          refine ⟨hdr1 ++ c, ?_, ?_⟩
          · rw [List.append_assoc, ← d1]
            exact a3
          · rw [hh, List.append_assoc, ← d2]
            exact c3

mutual
theorem decode_unambiguous : (t : Ty) → mapFree t = true → Unambiguous (decode t) (deepEqual t)
  | .bool, _ => by
    intro v1 v2 b1 b2 h1 h2 h
    simp only [decode, deepEqual] at h1 h2 h ⊢
    exact decodeBool_same v1 v2 b1 b2 h1 h2 h
  | .int w, _ => by
    intro v1 v2 b1 b2 h1 h2 h
    simp only [decode, deepEqual, decide_eq_true_eq] at h1 h2 h ⊢
    cases hr1 : (readFull w.bytes b1).err with
    | some x => simp [hr1] at h1
    | none =>
      cases hr2 : (readFull w.bytes b2).err with
      | some x => simp [hr2] at h2
      | none =>
        simp only [hr1, hr2] at h ⊢
        obtain ⟨s1, l1⟩ := readFull_split hr1
        obtain ⟨s2, l2⟩ := readFull_split hr2
        have q1 := leNat_lt (readFull w.bytes b1).val
        have q2 := leNat_lt (readFull w.bytes b2).val
        rw [l1, pow256] at q1
        rw [l2, pow256] at q2
        have hv := leNat_inj _ _ (by rw [l1, l2]) (toSigned_inj w _ _ q1 q2 h)
        exact ⟨(readFull w.bytes b1).val, s1, by rw [hv]; exact s2⟩
  | .uint w, _ => by
    intro v1 v2 b1 b2 h1 h2 h
    simp only [decode, deepEqual, decide_eq_true_eq] at h1 h2 h ⊢
    cases hr1 : (readFull w.bytes b1).err with
    | some x => simp [hr1] at h1
    | none =>
      cases hr2 : (readFull w.bytes b2).err with
      | some x => simp [hr2] at h2
      | none =>
        simp only [hr1, hr2] at h ⊢
        obtain ⟨s1, l1⟩ := readFull_split hr1
        obtain ⟨s2, l2⟩ := readFull_split hr2
        have hv := leNat_inj _ _ (by rw [l1, l2]) h
        exact ⟨(readFull w.bytes b1).val, s1, by rw [hv]; exact s2⟩
  | .string, _ => by
    intro v1 v2 b1 b2 h1 h2 h
    simp only [decode, deepEqual, decide_eq_true_eq] at h1 h2 h ⊢
    cases hr1 : (decodeByteSlice b1).err with
    | some x => simp [hr1] at h1
    | none =>
      cases hr2 : (decodeByteSlice b2).err with
      | some x => simp [hr2] at h2
      | none =>
        simp only [hr1, hr2] at h ⊢
        exact decodeByteSlice_same hr1 hr2 h
  | .slice t, hm => by
    intro v1 v2 b1 b2 h1 h2 h
    by_cases he : t = .uint .w8
    · subst he
      simp only [decode, deepEqual] at h1 h2 h ⊢
      cases hr1 : (decodeByteSlice b1).err with
      | some x => simp [hr1] at h1
      | none =>
        cases hr2 : (decodeByteSlice b2).err with
        | some x => simp [hr2] at h2
        | none =>
          simp only [hr1, hr2] at h ⊢
          have hl := listAll2_eq _ (fun a b hab => by simpa [deepEqual] using hab) _ _ h
          exact decodeByteSlice_same hr1 hr2 (map_val_inj _ _ hl)
    · simp only [decode_slice_general t he, deepEqual] at h1 h2 h ⊢
      cases hr1 : (readUint32 b1).err with
      | some x => simp [hr1] at h1
      | none =>
        cases hr2 : (readUint32 b2).err with
        | some x => simp [hr2] at h2
        | none =>
          simp only [hr1, hr2] at h1 h2 h ⊢
          cases hs1 : (decodeElems (decode t) (zero t) (readUint32 b1).val []
              (readUint32 b1).rest).err with
          | some x => simp [hs1] at h1
          | none =>
            cases hs2 : (decodeElems (decode t) (zero t) (readUint32 b2).val []
                (readUint32 b2).rest).err with
            | some x => simp [hs2] at h2
            | none =>
              simp only [hs1, hs2] at h ⊢
              obtain ⟨hdr1, a1, a2, a3⟩ := readUint32_split hr1
              obtain ⟨hdr2, c1, c2, c3⟩ := readUint32_split hr2
              obtain ⟨xs, x1, x2, x3⟩ :=
                (decodeElems_iff (decode t) (zero t) _ [] _ _ _).mp (Outcome.eta_none hs1)
              obtain ⟨ys, y1, y2, y3⟩ :=
                (decodeElems_iff (decode t) (zero t) _ [] _ _ _).mp (Outcome.eta_none hs2)
              simp only [List.nil_append] at x1 y1
              rw [x1, y1] at h
              have hlen := listAll2_length _ _ _ h
              have hh : hdr1 = hdr2 :=
                leNat_inj _ _ (by rw [a1, c1]) (by rw [a2, c2, ← x2, ← y2, hlen])
              obtain ⟨c, d1, d2⟩ := readsInOrder_same
                (decode_unambiguous t (by simpa [mapFree] using hm)) (zero t) xs ys _ _ _ _
                x3 y3 h
              refine ⟨hdr1 ++ c, ?_, ?_⟩
              · rw [List.append_assoc, ← d1]
                exact a3
              · rw [hh, List.append_assoc, ← d2]
                exact c3
  | .array n t, hm => by
    intro v1 v2 b1 b2 h1 h2 h
    by_cases he : t = .uint .w8
    · subst he
      simp only [decode, deepEqual] at h1 h2 h ⊢
      cases hr1 : (decodeByteSlice b1).err with
      | some x => simp [hr1] at h1
      | none =>
        cases hr2 : (decodeByteSlice b2).err with
        | some x => simp [hr2] at h2
        | none =>
          simp only [hr1, hr2] at h1 h2 h ⊢
          by_cases hl1 : (decodeByteSlice b1).val.length = n
          · by_cases hl2 : (decodeByteSlice b2).val.length = n
            · simp only [hl1, hl2, ne_eq, not_true_eq_false, if_false] at h ⊢
              have hl := listAll2_eq _ (fun a b hab => by simpa [deepEqual] using hab) _ _ h
              exact decodeByteSlice_same hr1 hr2 (map_val_inj _ _ hl)
            · simp [hl2] at h2
          · simp [hl1] at h1
    · simp only [decode_array_general n t he, deepEqual] at h1 h2 h ⊢
      cases hr1 : (readUint32 b1).err with
      | some x => simp [hr1] at h1
      | none =>
        cases hr2 : (readUint32 b2).err with
        | some x => simp [hr2] at h2
        | none =>
          simp only [hr1, hr2] at h1 h2 h ⊢
          by_cases hl1 : (readUint32 b1).val = n
          · by_cases hl2 : (readUint32 b2).val = n
            · simp only [hl1, hl2, ne_eq, not_true_eq_false, if_false] at h1 h2 h ⊢
              obtain ⟨hdr1, a1, a2, a3⟩ := readUint32_split hr1
              obtain ⟨hdr2, c1, c2, c3⟩ := readUint32_split hr2
              have hh : hdr1 = hdr2 :=
                leNat_inj _ _ (by rw [a1, c1]) (by rw [a2, c2, hl1, hl2])
              obtain ⟨c, d1, d2⟩ := decodeInPlace_same
                (decode_unambiguous t (by simpa [mapFree] using hm)) v1 v2 _ _ h1 h2 h
              refine ⟨hdr1 ++ c, ?_, ?_⟩
              · rw [List.append_assoc, ← d1]
                exact a3
              · rw [hh, List.append_assoc, ← d2]
                exact c3
            · simp [hl2] at h2
          · simp [hl1] at h1
  | .struct fs, hm => by
    intro v1 v2 b1 b2 h1 h2 h
    simp only [decode, deepEqual] at h1 h2 h ⊢
    exact decodeStruct_unambiguous fs (by simpa [mapFree] using hm) v1 v2 b1 b2 h1 h2 h
  | .map _ _, hm => by simp [mapFree] at hm
  | .ptr t, hm => by
    intro v1 v2 b1 b2 h1 h2 h
    simp only [decode, deepEqual] at h1 h2 h ⊢
    exact decode_unambiguous t (by simpa [mapFree] using hm) _ _ b1 b2 h1 h2 h
  | .iface, _ => by
    intro v1 v2 b1 b2 h1
    simp [decode] at h1
  | .other _, _ => by
    intro v1 v2 b1 b2 h1
    simp [decode] at h1
  | .named t, hm => by
    simp only [mapFree] at hm
    by_cases ht : t = .slice (.uint .w8)
    · subst ht
      intro v1 v2 b1 b2 h1 h2 h
      simp only [decode_named_byteSlice] at h1 h2 h ⊢
      exact sliceGeneral_unambiguous (.uint .w8) (decode_uint_unambiguous .w8) v1 v2 b1 b2
        h1 h2 h
    · intro v1 v2 b1 b2 h1 h2 h
      simp only [decode_named t ht] at h1 h2 h ⊢
      exact decode_unambiguous t hm v1 v2 b1 b2 h1 h2 h
theorem decodeStruct_unambiguous : (fs : Fields) → mapFreeFields fs = true →
    Unambiguous (decodeStruct fs) (deepEqualFields fs)
  | .nil, _ => by
    intro v1 v2 b1 b2 _ _ _
    exact ⟨[], by simp [decodeStruct], by simp [decodeStruct]⟩
  | .cons exported tag t rest, hm => by
    intro v1 v2 b1 b2 h1 h2 h
    obtain ⟨x1, xs1⟩ := v1
    obtain ⟨x2, xs2⟩ := v2
    simp only [mapFreeFields, Bool.and_eq_true] at hm
    have ihr := decodeStruct_unambiguous rest hm.2
    have iht := decode_unambiguous t hm.1
    simp only [decodeStruct] at h1 h2 h ⊢
    by_cases hskip : (!exported || decide (tag = "-")) = true
    · simp only [hskip, if_true, deepEqualFields, Bool.and_eq_true] at h1 h2 h ⊢
      exact ihr xs1 xs2 b1 b2 h1 h2 h.2
    · simp only [hskip, if_false, Bool.false_eq_true] at h1 h2 h ⊢
      by_cases hopt : (isNullable t && decide (tag = "optional")) = true
      · simp only [hopt, if_true] at h1 h2 h ⊢
        have hnull : isNullable t = true := by
          simp only [Bool.and_eq_true] at hopt
          exact hopt.1
        cases hf1 : (decodeBool false b1).err with
        | some y => simp [hf1] at h1
        | none =>
          cases hf2 : (decodeBool false b2).err with
          | some y => simp [hf2] at h2
          | none =>
            simp only [hf1, hf2] at h1 h2 h ⊢
            obtain ⟨f1, p1, q1⟩ := decodeBool_split hf1
            obtain ⟨f2, p2, q2⟩ := decodeBool_split hf2
            cases hv1 : (decodeBool false b1).val <;> cases hv2 : (decodeBool false b2).val
            · simp only [hv1, hv2, Bool.not_false, if_true, deepEqualFields,
                Bool.and_eq_true] at h1 h2 h ⊢
              obtain ⟨c, d1, d2⟩ := ihr xs1 xs2 _ _ h1 h2 h.2
              have e1 : f1 = 0 := by simpa [hv1] using q1
              have e2 : f2 = 0 := by simpa [hv2] using q2
              refine ⟨0 :: c, ?_, ?_⟩
              · rw [List.cons_append, ← d1, ← e1]
                exact p1
              · rw [List.cons_append, ← d2, ← e2]
                exact p2
            · simp only [hv1, hv2, Bool.not_false, Bool.not_true, if_true, if_false,
                Bool.false_eq_true] at h1 h2 h
              cases hd2 : (decode t x2 (decodeBool false b2).rest).err with
              | some y => simp [hd2] at h2
              | none =>
                simp only [hd2, deepEqualFields, Bool.and_eq_true] at h
                rw [(decode_nullable_ne_zero t hnull x2 _ hd2).1] at h
                simp at h
            · simp only [hv1, hv2, Bool.not_false, Bool.not_true, if_true, if_false,
                Bool.false_eq_true] at h1 h2 h
              cases hd1 : (decode t x1 (decodeBool false b1).rest).err with
              | some y => simp [hd1] at h1
              | none =>
                simp only [hd1, deepEqualFields, Bool.and_eq_true] at h
                rw [(decode_nullable_ne_zero t hnull x1 _ hd1).2] at h
                simp at h
            · simp only [hv1, hv2, Bool.not_true, if_false, Bool.false_eq_true] at h1 h2 h ⊢
              cases hd1 : (decode t x1 (decodeBool false b1).rest).err with
              | some y => simp [hd1] at h1
              | none =>
                cases hd2 : (decode t x2 (decodeBool false b2).rest).err with
                | some y => simp [hd2] at h2
                | none =>
                  simp only [hd1, hd2, deepEqualFields, Bool.and_eq_true] at h1 h2 h ⊢
                  obtain ⟨c, d1, d2⟩ := iht x1 x2 _ _ hd1 hd2 h.1
                  obtain ⟨c', k1, k2⟩ := ihr xs1 xs2 _ _ h1 h2 h.2
                  have e1 : f1 = 1 := by simpa [hv1] using q1
                  have e2 : f2 = 1 := by simpa [hv2] using q2
                  refine ⟨1 :: (c ++ c'), ?_, ?_⟩
                  · rw [List.cons_append, List.append_assoc, ← k1, ← d1, ← e1]
                    exact p1
                  · rw [List.cons_append, List.append_assoc, ← k2, ← d2, ← e2]
                    exact p2
      · simp only [hopt, if_false, Bool.not_true, Bool.false_eq_true] at h1 h2 h ⊢
        cases hd1 : (decode t x1 b1).err with
        | some y => simp [hd1] at h1
        | none =>
          cases hd2 : (decode t x2 b2).err with
          | some y => simp [hd2] at h2
          | none =>
            simp only [hd1, hd2, deepEqualFields, Bool.and_eq_true] at h1 h2 h ⊢
            obtain ⟨c, d1, d2⟩ := iht x1 x2 _ _ hd1 hd2 h.1
            obtain ⟨c', k1, k2⟩ := ihr xs1 xs2 _ _ h1 h2 h.2
            refine ⟨c ++ c', ?_, ?_⟩
            · rw [List.append_assoc, ← k1]
              exact d1
            · rw [List.append_assoc, ← k2]
              exact d2
end

/-- C8, as stated, fails on maps: a map of `uint8` to `uint8` is decoded from the six bytes of
one pair and from the eight bytes of two pairs with the same key; `Unmarshal` accepts both
and the two decoded maps are deeply equal. -/
theorem length_malleability_counterexample :
    Unmarshal (.map (.uint .w8) (.uint .w8)) (zero (.map (.uint .w8) (.uint .w8)))
      [1, 0, 0, 0, 7, 1] = ⟨none, some [(7, 1)], []⟩ ∧
    Unmarshal (.map (.uint .w8) (.uint .w8)) (zero (.map (.uint .w8) (.uint .w8)))
      [2, 0, 0, 0, 7, 9, 7, 1] = ⟨none, some [(7, 1)], []⟩ ∧
    deepEqual (.map (.uint .w8) (.uint .w8)) (some [(7, 1)]) (some [(7, 1)]) = true ∧
    ([1, 0, 0, 0, 7, 1] : List Byte).length ≠ ([2, 0, 0, 0, 7, 9, 7, 1] : List Byte).length := by
  decide

/-- C8, amended: for a target type in which no map occurs, two inputs that `Unmarshal`
accepts into zero-valued targets and whose decoded values are deeply equal have the same
length. -/
theorem unmarshal_length_determined (t : Ty) (hm : mapFree t = true) (b1 b2 : List Byte)
    (h1 : (Unmarshal t (zero t) b1).err = none) (h2 : (Unmarshal t (zero t) b2).err = none)
    (h : deepEqual t (Unmarshal t (zero t) b1).val (Unmarshal t (zero t) b2).val = true) :
    b1.length = b2.length := by
  obtain ⟨d1, r1⟩ := (unmarshal_accepts_iff t _ b1).mp h1
  obtain ⟨d2, r2⟩ := (unmarshal_accepts_iff t _ b2).mp h2
  have v1 : (Unmarshal t (zero t) b1).val = (decode t (zero t) b1).val := by
    unfold Unmarshal
    simp [d1, r1, Decoder.EOF]
  have v2 : (Unmarshal t (zero t) b2).val = (decode t (zero t) b2).val := by
    unfold Unmarshal
    simp [d2, r2, Decoder.EOF]
  rw [v1, v2] at h
  obtain ⟨c, e1, e2⟩ := decode_unambiguous t hm _ _ b1 b2 d1 d2 h
  rw [r1] at e1
  rw [r2] at e2
  rw [e1, e2]

theorem unmarshal_length_determined_witness :
    mapFree (.slice (.uint .w16)) = true ∧
    (Unmarshal (.slice (.uint .w16)) (zero (.slice (.uint .w16))) [1, 0, 0, 0, 0x11, 0]).err
      = none ∧
    deepEqual (.slice (.uint .w16))
      (Unmarshal (.slice (.uint .w16)) (zero (.slice (.uint .w16))) [1, 0, 0, 0, 0x11, 0]).val
      (Unmarshal (.slice (.uint .w16)) (zero (.slice (.uint .w16))) [1, 0, 0, 0, 0x11, 0]).val
      = true ∧
    ([1, 0, 0, 0, 0x11, 0] : List Byte).length = ([1, 0, 0, 0, 0x11, 0] : List Byte).length :=
  ⟨by decide, by decide, by decide,
    unmarshal_length_determined (.slice (.uint .w16)) (by decide) [1, 0, 0, 0, 0x11, 0]
      [1, 0, 0, 0, 0x11, 0] (by decide) (by decide) (by decide)⟩

/-! ## Round trip through the encoder of the spec -/

theorem leBytes_length : ∀ (k n : Nat), (leBytes k n).length = k
  | 0, _ => rfl
  | k + 1, n => by simp [leBytes, leBytes_length k]

theorem leNat_leBytes : ∀ (k n : Nat), leNat (leBytes k n) = n % 256 ^ k
  | 0, n => by simp [leBytes, leNat, Nat.mod_one]
  | k + 1, n => by
    simp only [leBytes, leNat, leNat_leBytes k, pow_succ]
    rw [Nat.mul_comm (256 ^ k) 256, Nat.mod_mul]

theorem readFull_exact (bs rest : List Byte) :
    readFull bs.length (bs ++ rest) = ⟨none, bs, rest⟩ := by
  rw [readFull_ok (by simp)]
  simp

theorem readUint32_leBytes (n : Nat) (h : n < 2 ^ 32) (rest : List Byte) :
    readUint32 (leBytes 4 n ++ rest) = ⟨none, n, rest⟩ := by
  have h1 := readFull_exact (leBytes 4 n) rest
  rw [leBytes_length] at h1
  simp only [readUint32, h1, leNat_leBytes]
  have : n % 256 ^ 4 = n := Nat.mod_eq_of_lt (by norm_num at h ⊢; exact h)
  rw [this]

theorem decodeByteSlice_blob (bs : List Byte) (h : bs.length ≤ MaxByteSliceSize)
    (rest : List Byte) :
    decodeByteSlice (leBytes 4 bs.length ++ (bs ++ rest)) = ⟨none, bs, rest⟩ := by
  have hlt : bs.length < 2 ^ 32 := lt_of_le_of_lt h (by decide)
  simp only [decodeByteSlice, readUint32_leBytes _ hlt, readFull_exact]
  simp [Nat.not_lt.mpr h]

theorem decodeByteSlice_oversized (bs : List Byte) (h : MaxByteSliceSize < bs.length)
    (h2 : bs.length < 2 ^ 32) (rest : List Byte) :
    decodeByteSlice (leBytes 4 bs.length ++ (bs ++ rest)) = ⟨some .tooLong, [], bs ++ rest⟩ := by
  simp [decodeByteSlice, readUint32_leBytes _ h2, h]

theorem toSigned_encode (w : Width) (v : Int) (h1 : -(2 ^ (8 * w.bytes - 1) : Int) ≤ v)
    (h2 : v < (2 ^ (8 * w.bytes - 1) : Int)) :
    toSigned w (leNat (leBytes w.bytes (v % 2 ^ (8 * w.bytes)).toNat)) = v := by
  rw [leNat_leBytes]
  cases w <;> simp only [Width.bytes, toSigned] at h1 h2 ⊢ <;> norm_num at h1 h2 ⊢ <;>
    split <;> omega

theorem decodeElems_encoded {α : Type} {f : α → List Byte → Outcome α} {z : α}
    {enc : α → List Byte} {ok : α → Prop} {eqv : α → α → Bool} {exact : Prop}
    (hrt : RoundTrips f z enc ok eqv exact) :
    ∀ (xs : List α), (∀ x ∈ xs, ok x) → ∀ (acc : List α) (rest : List Byte),
      ∃ xs', decodeElems f z xs.length acc (concatBytes (xs.map enc) ++ rest)
          = ⟨none, acc ++ xs', rest⟩ ∧
        listAll2 eqv xs' xs = true ∧ (exact → xs' = xs)
  | [], _, acc, rest => ⟨[], by simp [decodeElems, concatBytes], rfl, fun _ => rfl⟩
  | x :: xs, hok, acc, rest => by
    obtain ⟨x', hx1, hx2, hx3⟩ := hrt x (concatBytes (xs.map enc) ++ rest)
      (hok x (List.mem_cons_self _ _))
    obtain ⟨xs', hs1, hs2, hs3⟩ := decodeElems_encoded hrt xs
      (fun a ha => hok a (List.mem_cons_of_mem _ ha)) (acc ++ [x']) rest
    refine ⟨x' :: xs', ?_, by simp [listAll2, hx2, hs2], fun he => by rw [hx3 he, hs3 he]⟩
    simp only [List.map_cons, concatBytes, List.length_cons, decodeElems, List.append_assoc,
      hx1, hs1]
    simp

theorem decodeInPlace_encoded {α : Type} {f : α → List Byte → Outcome α} {z : α}
    {enc : α → List Byte} {ok : α → Prop} {eqv : α → α → Bool} {exact : Prop}
    (hrt : RoundTrips f z enc ok eqv exact) :
    ∀ (xs : List α), (∀ x ∈ xs, ok x) → ∀ (rest : List Byte),
      ∃ xs', decodeInPlace f (List.replicate xs.length z) (concatBytes (xs.map enc) ++ rest)
          = ⟨none, xs', rest⟩ ∧
        listAll2 eqv xs' xs = true ∧ (exact → xs' = xs)
  | [], _, rest => ⟨[], by simp [decodeInPlace, concatBytes], rfl, fun _ => rfl⟩
  | x :: xs, hok, rest => by
    obtain ⟨x', hx1, hx2, hx3⟩ := hrt x (concatBytes (xs.map enc) ++ rest)
      (hok x (List.mem_cons_self _ _))
    obtain ⟨xs', hs1, hs2, hs3⟩ := decodeInPlace_encoded hrt xs
      (fun a ha => hok a (List.mem_cons_of_mem _ ha)) rest
    refine ⟨x' :: xs', ?_, by simp [listAll2, hx2, hs2], fun he => by rw [hx3 he, hs3 he]⟩
    simp only [List.map_cons, concatBytes, List.length_cons, List.replicate_succ,
      decodeInPlace, List.append_assoc, hx1, hs1]

theorem decodePairs_encoded {κ ν : Type} (eq : κ → κ → Bool)
    {fk : κ → List Byte → Outcome κ} {zk : κ} {enck : κ → List Byte} {okk : κ → Prop}
    {eqk : κ → κ → Bool} {exk : Prop}
    {fv : ν → List Byte → Outcome ν} {zv : ν} {encv : ν → List Byte} {okv : ν → Prop}
    {eqv : ν → ν → Bool} {exv : Prop}
    (hk : RoundTrips fk zk enck okk eqk exk) (hexk : exk)
    (hv : RoundTrips fv zv encv okv eqv exv) :
    ∀ (l : List (κ × ν)), (∀ p ∈ l, okk p.1 ∧ okv p.2) →
      ∀ (m : List (κ × ν)) (rest : List Byte),
      ∃ l' : List (κ × ν), decodePairs eq fk zk fv zv l.length m
            (concatBytes (l.map (fun p => enck p.1 ++ encv p.2)) ++ rest)
          = ⟨none, l'.foldl (fun acc q => setMapIndex eq acc q.1 q.2) m, rest⟩ ∧
        List.Forall₂ (fun a b => a.1 = b.1 ∧ eqv a.2 b.2 = true) l' l
  | [], _, m, rest => ⟨[], by simp [decodePairs, concatBytes], List.Forall₂.nil⟩
  | p :: l, hok, m, rest => by
    obtain ⟨hp1, hp2⟩ := hok p (List.mem_cons_self _ _)
    obtain ⟨k', hk1, _, hk3⟩ := hk p.1
      (encv p.2 ++ (concatBytes (l.map (fun p => enck p.1 ++ encv p.2)) ++ rest)) hp1
    obtain ⟨x', hx1, hx2, _⟩ := hv p.2
      (concatBytes (l.map (fun p => enck p.1 ++ encv p.2)) ++ rest) hp2
    obtain ⟨l', hl1, hl2⟩ := decodePairs_encoded eq hk hexk hv l
      (fun a ha => hok a (List.mem_cons_of_mem _ ha)) (setMapIndex eq m k' x') rest
    refine ⟨(k', x') :: l', ?_, List.Forall₂.cons ⟨hk3 hexk, hx2⟩ hl2⟩
    simp only [List.map_cons, concatBytes, List.length_cons, decodePairs, List.append_assoc,
      hk1, hx1, hl1, List.foldl_cons]

theorem listAll2_refl {α : Type} (p : α → α → Bool) :
    ∀ xs : List α, (∀ x ∈ xs, p x x = true) → listAll2 p xs xs = true
  | [], _ => rfl
  | x :: xs, h => by
    simp only [listAll2, Bool.and_eq_true]
    exact ⟨h x (List.mem_cons_self _ _),
      listAll2_refl p xs (fun a ha => h a (List.mem_cons_of_mem _ ha))⟩

mutual
theorem plain_mapFree : (t : Ty) → plain t = true → mapFree t = true
  | .bool, _ => rfl
  | .int _, _ => rfl
  | .uint _, _ => rfl
  | .string, _ => rfl
  | .array _ e, h => by
    simp only [plain, mapFree] at h ⊢
    exact plain_mapFree e h
  | .struct fs, h => by
    simp only [plain, mapFree] at h ⊢
    exact plainFields_mapFree fs h
  | .slice _, h => by simp [plain] at h
  | .map _ _, h => by simp [plain] at h
  | .ptr _, h => by simp [plain] at h
  | .iface, h => by simp [plain] at h
  | .other _, h => by simp [plain] at h
  | .named t, h => by
    simp only [plain, mapFree] at h ⊢
    exact plain_mapFree t h
theorem plainFields_mapFree : (fs : Fields) → plainFields fs = true → mapFreeFields fs = true
  | .nil, _ => rfl
  | .cons _ _ t rest, h => by
    simp only [plainFields, mapFreeFields, Bool.and_eq_true] at h ⊢
    exact ⟨plain_mapFree t h.1, plainFields_mapFree rest h.2⟩
end

mutual
theorem keyEq_refl : (t : Ty) → plain t = true → ∀ a : t.denote, keyEq t a a = true
  | .bool, _, a => by simp [keyEq]
  | .int _, _, a => by simp [keyEq]
  | .uint _, _, a => by simp [keyEq]
  | .string, _, a => by simp [keyEq]
  | .array _ e, h, a => by
    simp only [plain] at h
    simp only [keyEq]
    exact listAll2_refl _ a (fun x _ => keyEq_refl e h x)
  | .struct fs, h, a => by
    simp only [plain] at h
    simp only [keyEq]
    exact keyEqFields_refl fs h a
  | .slice _, h, _ => by simp [plain] at h
  | .map _ _, h, _ => by simp [plain] at h
  | .ptr _, h, _ => by simp [plain] at h
  | .iface, h, _ => by simp [plain] at h
  | .other _, h, _ => by simp [plain] at h
  | .named t, h, a => by
    simp only [plain] at h
    simp only [keyEq]
    exact keyEq_refl t h a
theorem keyEqFields_refl : (fs : Fields) → plainFields fs = true →
    ∀ a : fs.denote, keyEqFields fs a a = true
  | .nil, _, _ => rfl
  | .cons _ _ t rest, h, (x, xs) => by
    simp only [plainFields, Bool.and_eq_true] at h
    simp only [keyEqFields, Bool.and_eq_true]
    exact ⟨keyEq_refl t h.1 x, keyEqFields_refl rest h.2 xs⟩
end

mutual
theorem deepEqual_zero : (t : Ty) → deepEqual t (zero t) (zero t) = true
  | .bool => by simp [deepEqual]
  | .int _ => by simp [deepEqual]
  | .uint _ => by simp [deepEqual]
  | .string => by simp [deepEqual]
  | .slice _ => by simp [deepEqual, zero]
  | .array n e => by
    simp only [deepEqual, zero]
    exact listAll2_refl _ _ (fun x hx => by
      rw [List.eq_of_mem_replicate hx]
      exact deepEqual_zero e)
  | .struct fs => by
    simp only [deepEqual, zero]
    exact deepEqualFields_zero fs
  | .map _ _ => by simp [deepEqual, zero]
  | .ptr _ => by simp [deepEqual, zero]
  | .iface => by simp [deepEqual]
  | .other _ => by simp [deepEqual]
  | .named t => by
    simp only [deepEqual, zero]
    exact deepEqual_zero t
theorem deepEqualFields_zero : (fs : Fields) →
    deepEqualFields fs (zeroFields fs) (zeroFields fs) = true
  | .nil => rfl
  | .cons _ _ t rest => by
    simp only [deepEqualFields, zeroFields, Bool.and_eq_true]
    exact ⟨deepEqual_zero t, deepEqualFields_zero rest⟩
end

theorem foldl_setMapIndex_distinct {κ ν : Type} (eq : κ → κ → Bool) :
    ∀ (l m : List (κ × ν)), (m ++ l).Pairwise (fun p q => eq p.1 q.1 = false) →
      l.foldl (fun acc q => setMapIndex eq acc q.1 q.2) m = m ++ l
  | [], m, _ => by simp
  | p :: l, m, h => by
    have hset : setMapIndex eq m p.1 p.2 = m ++ [p] := by
      have hm : ∀ a ∈ m, eq a.1 p.1 = false := by
        intro a ha
        have := List.pairwise_append.mp h
        exact this.2.2 a ha p (List.mem_cons_self _ _)
      clear h
      induction m with
      | nil => simp [setMapIndex]
      | cons a m ih =>
        obtain ⟨ak, av⟩ := a
        have h1 := hm (ak, av) (List.mem_cons_self _ _)
        simp only at h1
        simp only [setMapIndex, h1, Bool.false_eq_true, if_false, List.cons_append]
        rw [ih (fun b hb => hm b (List.mem_cons_of_mem _ hb))]
    rw [List.foldl_cons, hset, foldl_setMapIndex_distinct eq l (m ++ [p]) (by simpa using h)]
    simp

theorem mapIndex_of_mem {κ ν : Type} (eq : κ → κ → Bool) (p : κ × ν)
    (hr : eq p.1 p.1 = true) :
    ∀ (ps : List (κ × ν)), ps.Pairwise (fun a b => eq a.1 b.1 = false) → p ∈ ps →
      mapIndex eq ps p.1 = some p.2
  | [], _, h => by simp at h
  | (k, v) :: ps, hp, h => by
    simp only [mapIndex]
    rcases List.mem_cons.mp h with h1 | h1
    · subst h1
      simp [hr]
    · have h2 : eq k p.1 = false := (List.pairwise_cons.mp hp).1 p h1
      simp only [h2, Bool.false_eq_true, if_false]
      exact mapIndex_of_mem eq p hr ps (List.pairwise_cons.mp hp).2 h1

theorem encode_bytes : ∀ xs : List Nat, (∀ x ∈ xs, x < 256) →
    ∃ bs : List Byte, concatBytes (xs.map (encode (.uint .w8))) = bs ∧
      bs.map (fun b => b.val) = xs ∧ bs.length = xs.length
  | [], _ => ⟨[], rfl, rfl, rfl⟩
  | x :: xs, h => by
    obtain ⟨bs, h1, h2, h3⟩ := encode_bytes xs (fun a ha => h a (List.mem_cons_of_mem _ ha))
    have hx := h x (List.mem_cons_self _ _)
    refine ⟨⟨x, hx⟩ :: bs, ?_, by simp [h2], by simp [h3]⟩
    simp only [List.map_cons, concatBytes, h1]
    simp only [encode, Width.bytes, leBytes, List.cons_append, List.nil_append, List.cons.injEq,
      and_true]
    apply Fin.ext
    exact Nat.mod_eq_of_lt hx

theorem isNil_eq_zero : (t : Ty) → ∀ x : t.denote, isNil t x = true → x = zero t
  | .ptr e, x, h => by
    cases x with
    | none => rfl
    | some y => simp [isNil] at h
  | .iface, x, h => by
    cases x with
    | none => rfl
    | some y => simp [isNil] at h
  | .named t, x, h => by
    simp only [isNil] at h
    simp only [zero]
    exact isNil_eq_zero t x h
  | .bool, _, h => by simp [isNil] at h
  | .int _, _, h => by simp [isNil] at h
  | .uint _, _, h => by simp [isNil] at h
  | .slice _, _, h => by simp [isNil] at h
  | .array _ _, _, h => by simp [isNil] at h
  | .string, _, h => by simp [isNil] at h
  | .struct _, _, h => by simp [isNil] at h
  | .map _ _, _, h => by simp [isNil] at h
  | .other _, _, h => by simp [isNil] at h

theorem forall2_keys {κ ν : Type} (r : ν → ν → Prop) :
    ∀ (l' l : List (κ × ν)), List.Forall₂ (fun a b => a.1 = b.1 ∧ r a.2 b.2) l' l →
      l'.map Prod.fst = l.map Prod.fst
  | _, _, .nil => rfl
  | _, _, .cons h hs => by
    simp only [List.map_cons, h.1, forall2_keys r _ _ hs]

theorem forall2_mem_left {κ ν : Type} (r : ν → ν → Prop) :
    ∀ (l' l : List (κ × ν)), List.Forall₂ (fun a b => a.1 = b.1 ∧ r a.2 b.2) l' l →
      ∀ a ∈ l', ∃ b ∈ l, a.1 = b.1 ∧ r a.2 b.2
  | _, _, .nil, a, ha => by simp at ha
  | _, _, .cons (a := a0) (b := b0) h hs, a, ha => by
    rcases List.mem_cons.mp ha with h1 | h1
    · subst h1
      exact ⟨b0, List.mem_cons_self _ _, h⟩
    · obtain ⟨b, hb, hab⟩ := forall2_mem_left r _ _ hs a h1
      exact ⟨b, List.mem_cons_of_mem _ hb, hab⟩

theorem listAll2_both {α : Type} (p : α → α → Bool) :
    ∀ xs ys : List α, listAll2 (fun a b => p a b && p b a) xs ys = true →
      listAll2 p xs ys = true ∧ listAll2 p ys xs = true
  | [], [], _ => ⟨rfl, rfl⟩
  | [], _ :: _, h => by simp [listAll2] at h
  | _ :: _, [], h => by simp [listAll2] at h
  | x :: xs, y :: ys, h => by
    simp only [listAll2, Bool.and_eq_true] at h ⊢
    obtain ⟨h1, h2⟩ := listAll2_both p xs ys h.2
    exact ⟨⟨h.1.1, h1⟩, ⟨h.1.2, h2⟩⟩

theorem forall2_mem_right {κ ν : Type} (r : ν → ν → Prop) :
    ∀ (l' l : List (κ × ν)), List.Forall₂ (fun a b => a.1 = b.1 ∧ r a.2 b.2) l' l →
      ∀ b ∈ l, ∃ a ∈ l', a.1 = b.1 ∧ r a.2 b.2
  | _, _, .nil, b, hb => by simp at hb
  | _, _, .cons (a := a0) (b := b0) h hs, b, hb => by
    rcases List.mem_cons.mp hb with h1 | h1
    · subst h1
      exact ⟨a0, List.mem_cons_self _ _, h⟩
    · obtain ⟨a, ha, hab⟩ := forall2_mem_right r _ _ hs b h1
      exact ⟨a, List.mem_cons_of_mem _ ha, hab⟩

theorem decode_encode_map (k e : Ty)
    (hk : RoundTrips (decode k) (zero k) (encode k) (Canon k)
      (fun a b => deepEqual k a b && deepEqual k b a) (mapFree k = true))
    (he : RoundTrips (decode e) (zero e) (encode e) (Canon e)
      (fun a b => deepEqual e a b && deepEqual e b a) (mapFree e = true)) :
    RoundTrips (decode (.map k e)) (zero (.map k e)) (encode (.map k e)) (Canon (.map k e))
      (fun a b => deepEqual (.map k e) a b && deepEqual (.map k e) b a)
      (mapFree (.map k e) = true) := by
  intro v rest hc
  cases v with
  | none => simp [Canon] at hc
  | some ps =>
    simp only [Canon] at hc
    obtain ⟨hlen, hplain, hpw, hall⟩ := hc
    have hperm := List.perm_insertionSort
      (fun p q : k.denote × e.denote => byteLexLe (encode k p.1) (encode k q.1) = true) ps
    simp only [encode]
    generalize List.insertionSort
      (fun p q : k.denote × e.denote => byteLexLe (encode k p.1) (encode k q.1) = true) ps
      = sorted at hperm ⊢
    have hcanon : ∀ p ∈ sorted, Canon k p.1 ∧ Canon e p.2 :=
      fun p hp => hall p (hperm.mem_iff.mp hp)
    obtain ⟨l', hl1, hl2⟩ := decodePairs_encoded (keyEq k) hk (plain_mapFree k hplain) he
      sorted hcanon [] rest
    have hsym : Symmetric (fun p q : k.denote × e.denote => keyEq k p.1 q.1 = false) := by
      intro p q hpq
      cases hq : keyEq k q.1 p.1 with
      | false => rfl
      | true =>
        have h3 := keyEq_symm k _ _ hq
        rw [hpq] at h3
        cases h3
    have hpw2 : sorted.Pairwise (fun p q => keyEq k p.1 q.1 = false) :=
      (hperm.pairwise_iff (fun {_ _} h => hsym h)).mpr hpw
    have hkeys := forall2_keys (fun a b => (deepEqual e a b && deepEqual e b a) = true) _ _ hl2
    have hpw3 : l'.Pairwise (fun p q => keyEq k p.1 q.1 = false) := by
      have h1 : (sorted.map Prod.fst).Pairwise (fun a b => keyEq k a b = false) :=
        List.pairwise_map.mpr hpw2
      rw [← hkeys] at h1
      exact List.pairwise_map.mp h1
    have hfold := foldl_setMapIndex_distinct (keyEq k) l' [] (by simpa using hpw3)
    rw [hfold, List.nil_append] at hl1
    have hlen2 : sorted.length = ps.length := hperm.length_eq
    have hlen3 : l'.length = ps.length := by
      rw [← hlen2]
      exact hl2.length_eq
    refine ⟨some l', ?_, ?_, ?_⟩
    · simp only [decode, encode, List.append_assoc, readUint32_leBytes _ hlen]
      rw [← hlen2, hl1]
    · simp only [deepEqual, Bool.and_eq_true, decide_eq_true_eq, List.all_eq_true]
      refine ⟨⟨hlen3, ?_⟩, ⟨hlen3.symm, ?_⟩⟩
      · intro a ha
        obtain ⟨b, hb, hab1, hab2⟩ := forall2_mem_left
          (fun a b => (deepEqual e a b && deepEqual e b a) = true) _ _ hl2 a ha
        have hbps : b ∈ ps := hperm.mem_iff.mp hb
        rw [hab1, mapIndex_of_mem (keyEq k) b (keyEq_refl k hplain b.1) ps hpw hbps]
        simp only [Bool.and_eq_true] at hab2
        exact hab2.1
      · intro b hbps
        obtain ⟨a, ha, hab1, hab2⟩ := forall2_mem_right
          (fun a b => (deepEqual e a b && deepEqual e b a) = true) _ _ hl2 b
          (hperm.mem_iff.mpr hbps)
        have hr : keyEq k a.1 a.1 = true := keyEq_refl k hplain a.1
        rw [← hab1, mapIndex_of_mem (keyEq k) a hr l' hpw3 ha]
        simp only [Bool.and_eq_true] at hab2
        exact hab2.2
    · intro hm
      simp [mapFree] at hm

theorem decode_encode_bytes (xs : List Nat) (hx : ∀ x ∈ xs, Canon (.uint .w8) x)
    (hl : xs.length ≤ MaxByteSliceSize) (rest : List Byte) :
    ∃ bs : List Byte, bs.map (fun b => b.val) = xs ∧ bs.length = xs.length ∧
      decodeByteSlice (leBytes 4 xs.length ++ (concatBytes (xs.map (encode (.uint .w8))) ++ rest))
        = ⟨none, bs, rest⟩ := by
  obtain ⟨bs, h1, h2, h3⟩ := encode_bytes xs (fun x h => by
    have := hx x h
    simpa [Canon, Width.bytes] using this)
  refine ⟨bs, h2, h3, ?_⟩
  rw [h1, ← h3]
  exact decodeByteSlice_blob bs (by rw [h3]; exact hl) rest

theorem deepEqual_uint_refl (w : Width) (xs : List Nat) :
    listAll2 (deepEqual (.uint w)) xs xs = true :=
  listAll2_refl _ xs (fun x _ => by simp [deepEqual])

theorem decode_uint_roundtrips (w : Width) :
    RoundTrips (decode (.uint w)) (zero (.uint w)) (encode (.uint w)) (Canon (.uint w))
      (fun a b => deepEqual (.uint w) a b && deepEqual (.uint w) b a)
      (mapFree (.uint w) = true) := by
  intro v rest hc
  simp only [Canon] at hc
  refine ⟨v, ?_, by simp [deepEqual], fun _ => rfl⟩
  have h1 := readFull_exact (leBytes w.bytes v) rest
  rw [leBytes_length] at h1
  have h2 : v % 256 ^ w.bytes = v := Nat.mod_eq_of_lt (by rw [pow256]; exact hc)
  simp only [decode, encode, h1, leNat_leBytes, h2]

theorem sliceGeneral_roundtrips (e : Ty)
    (hrt : RoundTrips (decode e) (zero e) (encode e) (Canon e)
      (fun a b => deepEqual e a b && deepEqual e b a) (mapFree e = true)) :
    RoundTrips (decodeSliceGeneral e) (zero (.slice e)) (encode (.slice e)) (Canon (.slice e))
      (fun a b => deepEqual (.slice e) a b && deepEqual (.slice e) b a)
      (mapFree (.slice e) = true) := by
  intro v rest hc
  cases v with
  | none => simp [Canon] at hc
  | some xs =>
    simp only [Canon] at hc
    obtain ⟨hlen, _, hall⟩ := hc
    obtain ⟨xs', h1, h2, h3⟩ := decodeElems_encoded hrt xs hall [] rest
    obtain ⟨h2a, h2b⟩ := listAll2_both _ _ _ h2
    refine ⟨some xs', ?_, by simp [deepEqual, h2a, h2b], fun hm => by
      rw [h3 (by simpa [mapFree] using hm)]⟩
    simp only [decodeSliceGeneral, encode, List.append_assoc, readUint32_leBytes _ hlen, h1,
      List.nil_append]

mutual
theorem decode_encode : (t : Ty) →
    RoundTrips (decode t) (zero t) (encode t) (Canon t)
      (fun a b => deepEqual t a b && deepEqual t b a) (mapFree t = true)
  | .bool => by
    intro v rest _
    refine ⟨v, ?_, by simp [deepEqual], fun _ => rfl⟩
    cases v <;> simp [decode, encode, decodeBool_cons]
  | .int w => by
    intro v rest hc
    simp only [Canon] at hc
    refine ⟨v, ?_, by simp [deepEqual], fun _ => rfl⟩
    have h1 := readFull_exact (leBytes w.bytes (v % 2 ^ (8 * w.bytes)).toNat) rest
    rw [leBytes_length] at h1
    simp only [decode, encode, h1, toSigned_encode w v hc.1 hc.2]
  | .uint w => by
    intro v rest hc
    simp only [Canon] at hc
    refine ⟨v, ?_, by simp [deepEqual], fun _ => rfl⟩
    have h1 := readFull_exact (leBytes w.bytes v) rest
    rw [leBytes_length] at h1
    have h2 : v % 256 ^ w.bytes = v := Nat.mod_eq_of_lt (by rw [pow256]; exact hc)
    simp only [decode, encode, h1, leNat_leBytes, h2]
  | .string => by
    intro v rest hc
    simp only [Canon] at hc
    refine ⟨v, ?_, by simp [deepEqual], fun _ => rfl⟩
    simp only [decode, encode, List.append_assoc, decodeByteSlice_blob v hc rest]
  | .slice t => by
    intro v rest hc
    cases v with
    | none => simp [Canon] at hc
    | some xs =>
      simp only [Canon] at hc
      obtain ⟨hlen, hbyte, hall⟩ := hc
      by_cases he : t = .uint .w8
      · subst he
        obtain ⟨bs, h1, _, h3⟩ := decode_encode_bytes xs hall (hbyte rfl) rest
        refine ⟨some xs, ?_, ?_, fun _ => rfl⟩
        · simp only [decode, List.append_assoc]
          rw [show encode (.slice (.uint .w8)) (some xs)
            = leBytes 4 xs.length ++ concatBytes (xs.map (encode (.uint .w8))) from rfl,
            List.append_assoc, h3, h1]
        · simp only [deepEqual, Bool.and_self]
          exact deepEqual_uint_refl _ xs
      · obtain ⟨xs', h1, h2, h3⟩ := decodeElems_encoded (decode_encode t) xs hall [] rest
        obtain ⟨h2a, h2b⟩ := listAll2_both _ _ _ h2
        refine ⟨some xs', ?_, by simp [deepEqual, h2a, h2b], fun hm => by
          rw [h3 (by simpa [mapFree] using hm)]⟩
        rw [decode_slice_general t he]
        simp only [encode, List.append_assoc, readUint32_leBytes _ hlen, h1, List.nil_append]
  | .array n t => by
    intro v rest hc
    simp only [Canon] at hc
    obtain ⟨hn, hlen, hbyte, hall⟩ := hc
    by_cases he : t = .uint .w8
    · subst he
      obtain ⟨bs, h1, h2, h3⟩ := decode_encode_bytes v hall (by rw [hn]; exact hbyte rfl) rest
      refine ⟨v, ?_, ?_, fun _ => rfl⟩
      · simp only [decode]
        rw [show encode (.array n (.uint .w8)) v
            = leBytes 4 v.length ++ concatBytes (v.map (encode (.uint .w8))) from rfl,
          List.append_assoc, h3]
        simp [h1, h2, hn]
      · simp only [deepEqual, Bool.and_self]
        exact deepEqual_uint_refl _ v
    · obtain ⟨xs', h1, h2, h3⟩ := decodeInPlace_encoded (decode_encode t) v hall rest
      obtain ⟨h2a, h2b⟩ := listAll2_both _ _ _ h2
      refine ⟨xs', ?_, by simp [deepEqual, h2a, h2b], fun hm => h3 (by simpa [mapFree] using hm)⟩
      rw [decode_array_general n t he]
      rw [hn] at h1
      simp only [encode, List.append_assoc, hn, readUint32_leBytes _ hlen, zero, h1]
      simp
  | .struct fs => by
    intro v rest hc
    simp only [Canon] at hc
    obtain ⟨v', h1, h2, h3⟩ := decodeStruct_encode fs v rest hc
    exact ⟨v', by simpa [decode, encode, zero] using h1, by simpa [deepEqual] using h2,
      fun hm => h3 (by simpa [mapFree] using hm)⟩
  | .map k e => decode_encode_map k e (decode_encode k) (decode_encode e)
  | .ptr t => by
    intro v rest hc
    cases v with
    | none => simp [Canon] at hc
    | some x =>
      simp only [Canon] at hc
      obtain ⟨x', h1, h2, h3⟩ := decode_encode t x rest hc
      refine ⟨some x', ?_, by simpa [deepEqual] using h2, fun hm => by
        rw [h3 (by simpa [mapFree] using hm)]⟩
      simp only [decode, encode, zero, h1]
  | .iface => by
    intro v rest hc
    simp [Canon] at hc
  | .other _ => by
    intro v rest hc
    simp [Canon] at hc
  | .named t => by
    by_cases ht : t = .slice (.uint .w8)
    · subst ht
      intro v rest hc
      obtain ⟨v', h1, h2, h3⟩ :=
        sliceGeneral_roundtrips (.uint .w8) (decode_uint_roundtrips .w8) v rest hc
      exact ⟨v', by rw [decode_named_byteSlice]; exact h1, h2, h3⟩
    · intro v rest hc
      obtain ⟨v', h1, h2, h3⟩ := decode_encode t v rest hc
      exact ⟨v', by rw [decode_named t ht]; exact h1, h2, h3⟩
theorem decodeStruct_encode : (fs : Fields) →
    RoundTrips (decodeStruct fs) (zeroFields fs) (encodeFields fs) (CanonFields fs)
      (fun a b => deepEqualFields fs a b && deepEqualFields fs b a) (mapFreeFields fs = true)
  | .nil => by
    intro v rest _
    exact ⟨v, by simp [decodeStruct, encodeFields], rfl, fun _ => rfl⟩
  | .cons exported tag t fs => by
    intro v rest hc
    obtain ⟨x, xs⟩ := v
    simp only [CanonFields] at hc
    obtain ⟨hx, hxs⟩ := hc
    obtain ⟨xs', r1, r2, r3⟩ := decodeStruct_encode fs xs rest hxs
    simp only [Bool.and_eq_true] at r2
    by_cases hskip : (!exported || decide (tag = "-")) = true
    · simp only [hskip, if_true] at hx
      refine ⟨(zero t, xs'), ?_, ?_, ?_⟩
      · simp only [decodeStruct, encodeFields, zeroFields, hskip, if_true, r1]
      · simp only [deepEqualFields, Bool.and_eq_true, hx]
        exact ⟨⟨deepEqual_zero t, r2.1⟩, ⟨deepEqual_zero t, r2.2⟩⟩
      · intro hm
        simp only [mapFreeFields, Bool.and_eq_true] at hm
        rw [hx, r3 hm.2]
    · simp only [hskip, if_false, Bool.false_eq_true] at hx
      by_cases hopt : (isNullable t && decide (tag = "optional")) = true
      · simp only [hopt, if_true] at hx
        by_cases hnil : isNil t x = true
        · have hz := isNil_eq_zero t x hnil
          refine ⟨(zero t, xs'), ?_, ?_, ?_⟩
          · simp only [decodeStruct, encodeFields, zeroFields, hskip, hopt, hnil, if_true,
              if_false, Bool.false_eq_true, List.cons_append, List.nil_append,
              decodeBool_cons]
            simp [r1]
          · simp only [deepEqualFields, Bool.and_eq_true, hz]
            exact ⟨⟨deepEqual_zero t, r2.1⟩, ⟨deepEqual_zero t, r2.2⟩⟩
          · intro hm
            simp only [mapFreeFields, Bool.and_eq_true] at hm
            rw [hz, r3 hm.2]
        · have hcanon : Canon t x := by
            rcases hx with h | h
            · exact absurd h hnil
            · exact h
          obtain ⟨x', d1, d2, d3⟩ := decode_encode t x (encodeFields fs xs ++ rest) hcanon
          simp only [Bool.and_eq_true] at d2
          refine ⟨(x', xs'), ?_, ?_, ?_⟩
          · simp only [decodeStruct, encodeFields, zeroFields, hskip, hopt, hnil, if_true,
              if_false, Bool.false_eq_true, List.cons_append, List.append_assoc,
              decodeBool_cons]
            simp [d1, r1]
          · simp only [deepEqualFields, Bool.and_eq_true]
            exact ⟨⟨d2.1, r2.1⟩, ⟨d2.2, r2.2⟩⟩
          · intro hm
            simp only [mapFreeFields, Bool.and_eq_true] at hm
            rw [d3 hm.1, r3 hm.2]
      · simp only [hopt, if_false, Bool.false_eq_true] at hx
        obtain ⟨x', d1, d2, d3⟩ := decode_encode t x (encodeFields fs xs ++ rest) hx
        simp only [Bool.and_eq_true] at d2
        refine ⟨(x', xs'), ?_, ?_, ?_⟩
        · simp only [decodeStruct, encodeFields, zeroFields, hskip, hopt, if_false,
            Bool.false_eq_true, List.append_assoc, d1, r1]
          simp
        · simp only [deepEqualFields, Bool.and_eq_true]
          exact ⟨⟨d2.1, r2.1⟩, ⟨d2.2, r2.2⟩⟩
        · intro hm
          simp only [mapFreeFields, Bool.and_eq_true] at hm
          rw [d3 hm.1, r3 hm.2]
end

theorem unmarshal_string_oversized (bs : List Byte) (h : MaxByteSliceSize < bs.length)
    (h2 : bs.length < 2 ^ 32) :
    (Unmarshal .string (zero .string) (Marshal .string bs)).err = some .tooLong := by
  have h3 := decodeByteSlice_oversized bs h h2 []
  rw [List.append_nil] at h3
  simp only [Unmarshal, Marshal, decode, encode, h3]

/-- C1, as stated, fails: a string of 104857601 bytes encodes to a length field above
`MaxByteSliceSize` and `Unmarshal` rejects its encoding with the oversized-length error; a nil
slice and a nil map encode like empty ones and come back non-nil, which deep equality tells
apart; a map keyed by pointers comes back with freshly allocated keys, which `==` tells from
the original keys, so the two maps are not deeply equal. -/
theorem roundtrip_counterexample :
    (Unmarshal .string (zero .string) (Marshal .string (List.replicate 104857601 0))).err
      = some .tooLong ∧
    (Unmarshal (.slice (.uint .w16)) (zero (.slice (.uint .w16)))
        (Marshal (.slice (.uint .w16)) none) = ⟨none, some [], []⟩ ∧
      deepEqual (.slice (.uint .w16)) (some []) none = false) ∧
    (Unmarshal (.map (.uint .w8) (.uint .w8)) (zero (.map (.uint .w8) (.uint .w8)))
        (Marshal (.map (.uint .w8) (.uint .w8)) none) = ⟨none, some [], []⟩ ∧
      deepEqual (.map (.uint .w8) (.uint .w8)) (some []) none = false) ∧
    (Unmarshal (.map (.ptr (.uint .w8)) (.uint .w8)) (zero (.map (.ptr (.uint .w8)) (.uint .w8)))
        (Marshal (.map (.ptr (.uint .w8)) (.uint .w8)) (some [(some 5, 1)]))
        = ⟨none, some [(some 5, 1)], []⟩ ∧
      deepEqual (.map (.ptr (.uint .w8)) (.uint .w8)) (some [(some 5, 1)]) (some [(some 5, 1)])
        = false) := by
  refine ⟨?_, by decide, by decide, by decide⟩
  exact unmarshal_string_oversized _ (by rw [List.length_replicate]; decide)
    (by rw [List.length_replicate]; decide)

/-- C1, amended: for every value in `Canon` (a value of the listed shapes in which byte blobs
and strings are at most 100 MiB long, counts fit four bytes, slices and maps are non-nil,
pointers are nil only in `optional` fields, map keys are of a pointer-free type, and skipped
fields hold their zero value), `Unmarshal` of the canonical encoding into a zero-valued
target succeeds and yields a value deeply equal to the encoded one, whichever of the two is
given first to `reflect.DeepEqual`; when no map occurs in the type it is the very same
value. -/
theorem unmarshal_marshal_roundtrip (t : Ty) (v : t.denote) (hc : Canon t v) :
    (Unmarshal t (zero t) (Marshal t v)).err = none ∧
      deepEqual t v (Unmarshal t (zero t) (Marshal t v)).val = true ∧
      deepEqual t (Unmarshal t (zero t) (Marshal t v)).val v = true ∧
      (mapFree t = true → (Unmarshal t (zero t) (Marshal t v)).val = v) := by
  obtain ⟨v', h1, h2, h3⟩ := decode_encode t v [] hc
  rw [List.append_nil] at h1
  simp only [Bool.and_eq_true] at h2
  have hu : Unmarshal t (zero t) (Marshal t v) = ⟨none, v', []⟩ := by
    simp [Unmarshal, Marshal, h1, Decoder.EOF]
  rw [hu]
  exact ⟨rfl, h2.2, h2.1, h3⟩

theorem unmarshal_marshal_roundtrip_witness :
    Canon (.struct (.cons true "" .bool (.cons true "" (.slice (.uint .w8))
        (.cons true "" .string (.cons false "" (.uint .w32) .nil)))))
      (true, some [0x11, 0x22], [0x68, 0x65, 0x6C, 0x6C, 0x6F], 0, ()) ∧
    Marshal (.struct (.cons true "" .bool (.cons true "" (.slice (.uint .w8))
        (.cons true "" .string (.cons false "" (.uint .w32) .nil)))))
      (true, some [0x11, 0x22], [0x68, 0x65, 0x6C, 0x6C, 0x6F], 0, ())
      = [1, 2, 0, 0, 0, 0x11, 0x22, 5, 0, 0, 0, 0x68, 0x65, 0x6C, 0x6C, 0x6F] ∧
    (Unmarshal (.struct (.cons true "" .bool (.cons true "" (.slice (.uint .w8))
        (.cons true "" .string (.cons false "" (.uint .w32) .nil)))))
      (zero (.struct (.cons true "" .bool (.cons true "" (.slice (.uint .w8))
        (.cons true "" .string (.cons false "" (.uint .w32) .nil))))))
      (Marshal (.struct (.cons true "" .bool (.cons true "" (.slice (.uint .w8))
        (.cons true "" .string (.cons false "" (.uint .w32) .nil)))))
      (true, some [0x11, 0x22], [0x68, 0x65, 0x6C, 0x6C, 0x6F], 0, ()))).val
      = (true, some [0x11, 0x22], [0x68, 0x65, 0x6C, 0x6C, 0x6F], 0, ()) :=
  ⟨by simp [Canon, CanonFields, zero, MaxByteSliceSize, Width.bytes], by decide,
    (unmarshal_marshal_roundtrip _ _
      (by simp [Canon, CanonFields, zero, MaxByteSliceSize, Width.bytes])).2.2.2 (by decide)⟩

/-! ## Records, unsupported kinds, strings, pointers and the byte fast path -/

/-- C11: `decodeStruct` takes the fields in declaration order.  A field that is unexported or
tagged `-` consumes no input and keeps the value it had in the target: the record is decoded
as the remaining fields from the same byte.  Every other field (here one without a presence
flag; the flag is C10) is decoded from the byte where the field before it ended; an error of
the field is the error of the record, with the unread input as the field left it and the
later fields untouched; after a success the remaining fields go on from where it ended.  The
vector is the record of the tests, the unexported field holding 77 before and after. -/
theorem decodeStruct_declaration_order (exported : Bool) (tag : String) (t : Ty) (rest : Fields)
    (x : t.denote) (xs : rest.denote) (inp : List Byte) :
    ((exported = false ∨ tag = "-") →
      decodeStruct (.cons exported tag t rest) (x, xs) inp =
        ⟨(decodeStruct rest xs inp).err, (x, (decodeStruct rest xs inp).val),
          (decodeStruct rest xs inp).rest⟩) ∧
    (exported = true → tag ≠ "-" → (isNullable t && decide (tag = "optional")) = false →
      decodeStruct (.cons exported tag t rest) (x, xs) inp =
        (match (decode t x inp).err with
          | some e => ⟨some e, ((decode t x inp).val, xs), (decode t x inp).rest⟩
          | none =>
            ⟨(decodeStruct rest xs (decode t x inp).rest).err,
              ((decode t x inp).val, (decodeStruct rest xs (decode t x inp).rest).val),
              (decodeStruct rest xs (decode t x inp).rest).rest⟩)) ∧
    decodeStruct
      (.cons true "" .bool (.cons true "" (.slice (.uint .w8))
        (.cons true "" .string (.cons false "" (.uint .w32) .nil))))
      (false, none, [], 77, ())
      [0x01, 0x02, 0x00, 0x00, 0x00, 0x11, 0x22, 0x05, 0x00, 0x00, 0x00,
        0x68, 0x65, 0x6C, 0x6C, 0x6F]
      = ⟨none, (true, some [0x11, 0x22], [0x68, 0x65, 0x6C, 0x6C, 0x6F], 77, ()), []⟩ := by
  refine ⟨?_, ?_, by decide⟩
  · intro h
    have hskip : (!exported || decide (tag = "-")) = true := by
      rcases h with h | h <;> simp [h]
    simp only [decodeStruct, hskip, if_true]
  · intro he ht hopt
    have hskip : (!exported || decide (tag = "-")) = false := by
      simp [he, ht]
    cases hd : (decode t x inp).err <;>
      simp [decodeStruct, hskip, hopt, hd]

theorem decodeStruct_declaration_order_witness :
    (false = false ∨ "" = "-") ∧
    decodeStruct (.cons false "" (.uint .w32) .nil) (77, ()) [0xAA] = ⟨none, (77, ()), [0xAA]⟩ :=
  ⟨Or.inl rfl, by
    have h := (decodeStruct_declaration_order false "" (.uint .w32) .nil 77 () [0xAA]).1
      (Or.inl rfl)
    simp only [decodeStruct] at h
    exact h⟩

/-- C13: for a target of a kind outside the decoder's cases (machine-width `int` and `uint`,
`uintptr`, floating point, complex, channel, function, unsafe pointer), and for an interface
target as well, `decode` fails with the unsupported-kind error "not supported", leaves the
target as it was and consumes no input, on every input and on the empty one; `Unmarshal`
returns the same error. -/
theorem decode_unsupported (k : OtherKind) (v : Nat) (inp : List Byte) :
    decode (.other k) v inp = ⟨some .notSupported, v, inp⟩ ∧
    Unmarshal (.other k) v inp = ⟨some .notSupported, v, inp⟩ ∧
    decode (.other k) v [] = ⟨some .notSupported, v, []⟩ ∧
    (∀ x : Option Nat, decode .iface x inp = ⟨some .notSupported, x, inp⟩) := by
  simp [decode, Unmarshal]

/-- C15: decoding into a nil pointer to `T` allocates a zero `T` and decodes into it: the
error and the unread input are those of decoding into a zero-valued `T`, and the target
becomes a pointer to the value that decode yields.  A record field embedded by reference
therefore reads the same wire form as the field embedded by value. -/
theorem decode_pointer_transparent (t : Ty) (inp : List Byte) :
    decode (.ptr t) none inp =
      ⟨(decode t (zero t) inp).err, some (decode t (zero t) inp).val,
        (decode t (zero t) inp).rest⟩ ∧
    (∀ (rest : Fields) (xs : rest.denote),
      (decodeStruct (.cons true "" (.ptr t) rest) (none, xs) inp).err
        = (decodeStruct (.cons true "" t rest) (zero t, xs) inp).err ∧
      (decodeStruct (.cons true "" (.ptr t) rest) (none, xs) inp).rest
        = (decodeStruct (.cons true "" t rest) (zero t, xs) inp).rest ∧
      (decodeStruct (.cons true "" (.ptr t) rest) (none, xs) inp).val.1
        = some (decodeStruct (.cons true "" t rest) (zero t, xs) inp).val.1 ∧
      (decodeStruct (.cons true "" (.ptr t) rest) (none, xs) inp).val.2
        = (decodeStruct (.cons true "" t rest) (zero t, xs) inp).val.2) := by
  have h1 : decode (.ptr t) none inp =
      ⟨(decode t (zero t) inp).err, some (decode t (zero t) inp).val,
        (decode t (zero t) inp).rest⟩ := by
    simp only [decode]
  refine ⟨h1, ?_⟩
  intro rest xs
  cases hd : (decode t (zero t) inp).err <;>
    simp [decodeStruct, h1, hd]

/-- C12, as stated, fails: on the bytes the tests give for `Wrapper{Name: "1", Inner:
&MyStruct1{true}}` the decoder reads `Name`, then fails on the interface field `Inner` with
"not supported"; the discriminant 05 00 00 00 and the payload are left unread and no variant
is looked up. -/
theorem tagged_union_decode_counterexample :
    decodeStruct (.cons true "" .string (.cons true "enum:Wrapper.Inner" .iface .nil))
      ([], none, ()) [0x01, 0x00, 0x00, 0x00, 0x31, 0x05, 0x00, 0x00, 0x00, 0x01]
      = ⟨some .notSupported, ([0x31], none, ()), [0x05, 0x00, 0x00, 0x00, 0x01]⟩ ∧
    Unmarshal (.struct (.cons true "" .string (.cons true "enum:Wrapper.Inner" .iface .nil)))
      ([], none, ()) [0x01, 0x00, 0x00, 0x00, 0x31, 0x05, 0x00, 0x00, 0x00, 0x01]
      = ⟨some .notSupported, ([0x31], none, ()), [0x05, 0x00, 0x00, 0x00, 0x01]⟩ := by
  decide

/-- C12, amended: the decoder has no case for an interface target.  `decode` of an interface
fails with "not supported" without reading; so does `decodeStruct` at an exported interface
field whose tag is neither `-` nor `optional`, whatever the tag says about variants, leaving
the record and the input as they were at that field.  With the tag `optional` the presence
flag is read: flag 0 sets the field to nil, flag 1 fails with "not supported". -/
theorem tagged_union_not_decoded (tag : String) (rest : Fields) (x : Option Nat)
    (xs : rest.denote) (inp : List Byte) (h1 : tag ≠ "-") (h2 : tag ≠ "optional") :
    decode .iface x inp = ⟨some .notSupported, x, inp⟩ ∧
    decodeStruct (.cons true tag .iface rest) (x, xs) inp = ⟨some .notSupported, (x, xs), inp⟩ ∧
    (∀ b : Byte,
      decodeStruct (.cons true "optional" .iface rest) (x, xs) (b :: inp) =
        if b = 0 then
          ⟨(decodeStruct rest xs inp).err, (none, (decodeStruct rest xs inp).val),
            (decodeStruct rest xs inp).rest⟩
        else if b = 1 then ⟨some .notSupported, (x, xs), inp⟩
        else ⟨some .invalidBool, (x, xs), inp⟩) := by
  refine ⟨by simp [decode], by simp [decodeStruct, decode, h1, h2], ?_⟩
  intro b
  have hb := decodeBool_cons false b inp
  by_cases h0 : b = 0
  · subst h0
    simp [decodeStruct, isNullable, hb, zero]
  · by_cases hb1 : b = 1
    · subst hb1
      simp [decodeStruct, isNullable, hb, decode]
    · simp [decodeStruct, isNullable, hb, h0, hb1]

theorem tagged_union_not_decoded_witness :
    "enum:Wrapper.Inner" ≠ "-" ∧ "enum:Wrapper.Inner" ≠ "optional" ∧
    decodeStruct (.cons true "enum:Wrapper.Inner" .iface .nil) (none, ())
      [0x05, 0x00, 0x00, 0x00, 0x01]
      = ⟨some .notSupported, (none, ()), [0x05, 0x00, 0x00, 0x00, 0x01]⟩ :=
  ⟨by decide, by decide,
    (tagged_union_not_decoded "enum:Wrapper.Inner" .nil none () [0x05, 0x00, 0x00, 0x00, 0x01]
      (by decide) (by decide)).2.1⟩

/-- C14: for every byte string of length at most `MaxByteSliceSize`, whether or not it is
valid UTF-8, decoding a string from its four-byte little-endian length followed by its bytes
succeeds, consumes exactly these 4 + L bytes and yields the string made of exactly those
bytes.  On every input `decodeString` has the error and the unread input of
`decodeByteSlice`, so it succeeds on exactly the same inputs, with the same bytes. -/
theorem decodeString_any_bytes (b0 b1 b2 b3 : Byte) (bs rest : List Byte) (v : List Byte)
    (hl : leNat [b0, b1, b2, b3] = bs.length) (hm : bs.length ≤ MaxByteSliceSize) :
    decode .string v (b0 :: b1 :: b2 :: b3 :: (bs ++ rest)) = ⟨none, bs, rest⟩ ∧
    (b0 :: b1 :: b2 :: b3 :: (bs ++ rest)).length = 4 + bs.length + rest.length ∧
    (∀ (w : List Byte) (inp : List Byte),
      ((decode .string w inp).err = none ↔ (decodeByteSlice inp).err = none) ∧
      (decode .string w inp).err = (decodeByteSlice inp).err ∧
      (decode .string w inp).rest = (decodeByteSlice inp).rest ∧
      ((decodeByteSlice inp).err = none → (decode .string w inp).val = (decodeByteSlice inp).val))
    := by
  refine ⟨?_, by simp; omega, ?_⟩
  · have h1 := readFull_exact bs rest
    simp only [decode, decodeByteSlice, readUint32_four, hl, h1]
    simp [Nat.not_lt.mpr hm]
  · intro w inp
    simp only [decode]
    cases hd : (decodeByteSlice inp).err <;> simp [hd]

theorem decodeString_any_bytes_witness :
    leNat [2, 0, 0, 0] = ([0xFF, 0xFE] : List Byte).length ∧
    ([0xFF, 0xFE] : List Byte).length ≤ MaxByteSliceSize ∧
    decode .string [] (2 :: 0 :: 0 :: 0 :: ([0xFF, 0xFE] ++ [0x00])) = ⟨none, [0xFF, 0xFE], [0x00]⟩ :=
  ⟨by decide, by decide,
    (decodeString_any_bytes 2 0 0 0 [0xFF, 0xFE] [0x00] [] (by decide) (by decide)).1⟩

theorem decode_slice_eq_general (e : Ty) (h : e ≠ .uint .w8) (v : (Ty.slice e).denote)
    (inp : List Byte) : decode (.slice e) v inp = decodeSliceGeneral e v inp := by
  rw [decode_slice_general e h]
  rfl

/-- C16: on an input whose count field is at most `MaxByteSliceSize`, `decodeByteSlice`
succeeds exactly when the general sequence rule run on `uint8` elements succeeds, and then
the general rule yields the same bytes in the same order and leaves the same input unread,
so the byte fast path of `decodeSlice` returns what the general rule returns.  For every
other element type `decodeSlice` is the general rule. -/
theorem byte_fast_path_refines (v : Option (List Nat)) (inp : List Byte)
    (h : (readUint32 inp).val ≤ MaxByteSliceSize) :
    ((decodeByteSlice inp).err = none ↔ (decodeSliceGeneral (.uint .w8) v inp).err = none) ∧
    ((decodeByteSlice inp).err = none →
      (decodeSliceGeneral (.uint .w8) v inp).val
          = some ((decodeByteSlice inp).val.map (fun b => b.val)) ∧
        (decodeSliceGeneral (.uint .w8) v inp).rest = (decodeByteSlice inp).rest ∧
        decode (.slice (.uint .w8)) v inp = decodeSliceGeneral (.uint .w8) v inp) ∧
    (∀ (e : Ty) (w : (Ty.slice e).denote), e ≠ .uint .w8 →
      decode (.slice e) w inp = decodeSliceGeneral e w inp) := by
  refine ⟨?_, ?_, fun e w he => decode_slice_eq_general e he w inp⟩
  · simp only [decodeByteSlice, decodeSliceGeneral, decodeElems_uint8]
    cases hr : (readUint32 inp).err with
    | some x => simp
    | none =>
      simp only [Nat.not_lt.mpr h, if_false, List.nil_append]
      by_cases hl : (readUint32 inp).val ≤ (readUint32 inp).rest.length
      · simp [hl, readFull_ok hl]
      · simp [hl, readFull_short (Nat.not_le.mp hl)]
  · have hf : decode (.slice (.uint .w8)) v inp =
        (match (decodeByteSlice inp).err with
          | some e => ⟨some e, v, (decodeByteSlice inp).rest⟩
          | none => ⟨none, some ((decodeByteSlice inp).val.map (fun b => b.val)),
              (decodeByteSlice inp).rest⟩) := rfl
    rw [hf]
    simp only [decodeByteSlice, decodeSliceGeneral, decodeElems_uint8]
    cases hr : (readUint32 inp).err with
    | some x => simp
    | none =>
      simp only [Nat.not_lt.mpr h, if_false, List.nil_append]
      by_cases hl : (readUint32 inp).val ≤ (readUint32 inp).rest.length
      · simp [hl, readFull_ok hl]
      · simp [hl, readFull_short (Nat.not_le.mp hl)]

theorem byte_fast_path_refines_witness :
    (readUint32 [2, 0, 0, 0, 0x11, 0x22, 0x33]).val ≤ MaxByteSliceSize ∧
    decode (.slice (.uint .w8)) none [2, 0, 0, 0, 0x11, 0x22, 0x33]
      = decodeSliceGeneral (.uint .w8) none [2, 0, 0, 0, 0x11, 0x22, 0x33] ∧
    decodeSliceGeneral (.uint .w8) none [2, 0, 0, 0, 0x11, 0x22, 0x33]
      = ⟨none, some [0x11, 0x22], [0x33]⟩ :=
  ⟨by decide,
    ((byte_fast_path_refines none [2, 0, 0, 0, 0x11, 0x22, 0x33] (by decide)).2.1
      (by decide)).2.2,
    by decide⟩

/-! ## Injectivity, failure atomicity, the end-of-input test and the size bound -/

/-- C17: for a target type in which no map occurs, two inputs that `Unmarshal` accepts into
zero-valued targets and whose decoded values are deeply equal are the same input: a value has
at most one accepted encoding. -/
theorem unmarshal_injective (t : Ty) (hm : mapFree t = true) (b1 b2 : List Byte)
    (h1 : (Unmarshal t (zero t) b1).err = none) (h2 : (Unmarshal t (zero t) b2).err = none)
    (h : deepEqual t (Unmarshal t (zero t) b1).val (Unmarshal t (zero t) b2).val = true) :
    b1 = b2 := by
  obtain ⟨d1, r1⟩ := (unmarshal_accepts_iff t _ b1).mp h1
  obtain ⟨d2, r2⟩ := (unmarshal_accepts_iff t _ b2).mp h2
  have v1 : (Unmarshal t (zero t) b1).val = (decode t (zero t) b1).val := by
    unfold Unmarshal
    simp [d1, r1, Decoder.EOF]
  have v2 : (Unmarshal t (zero t) b2).val = (decode t (zero t) b2).val := by
    unfold Unmarshal
    simp [d2, r2, Decoder.EOF]
  rw [v1, v2] at h
  obtain ⟨c, e1, e2⟩ := decode_unambiguous t hm _ _ b1 b2 d1 d2 h
  rw [r1] at e1
  rw [r2] at e2
  rw [e1, e2]

theorem unmarshal_injective_witness :
    mapFree (.struct (.cons true "" .bool (.cons true "optional" (.ptr .string) .nil))) = true ∧
    (Unmarshal (.struct (.cons true "" .bool (.cons true "optional" (.ptr .string) .nil)))
      (zero (.struct (.cons true "" .bool (.cons true "optional" (.ptr .string) .nil))))
      [1, 1, 1, 0, 0, 0, 0x41]).err = none ∧
    (Unmarshal (.struct (.cons true "" .bool (.cons true "optional" (.ptr .string) .nil)))
      (zero (.struct (.cons true "" .bool (.cons true "optional" (.ptr .string) .nil))))
      [1, 1, 1, 0, 0, 0, 0x41]).val = (true, some [0x41], ()) ∧
    ([1, 1, 1, 0, 0, 0, 0x41] : List Byte) = [1, 1, 1, 0, 0, 0, 0x41] :=
  ⟨by decide, by decide, by decide,
    unmarshal_injective (.struct (.cons true "" .bool (.cons true "optional" (.ptr .string) .nil)))
      (by decide) [1, 1, 1, 0, 0, 0, 0x41] [1, 1, 1, 0, 0, 0, 0x41] (by decide) (by decide)
      (by decide)⟩

theorem stored_only_at_end : (t : Ty) → storesAtEnd t = true → (v : t.denote) →
    (inp : List Byte) → (decode t v inp).err ≠ none → (decode t v inp).val = v := by
  intro t ht v inp hf
  cases t with
  | bool =>
    simp only [decode, decodeBool] at hf ⊢
    cases hr : (readFull 1 inp).err with
    | some x => simp
    | none =>
      simp only [hr] at hf ⊢
      split
      · rename_i h1
        simp [h1] at hf
      · split
        · rename_i h1 h0
          simp [h1, h0] at hf
        · rfl
  | int w =>
    simp only [decode] at hf ⊢
    cases hr : (readFull w.bytes inp).err with
    | some x => simp
    | none => simp [hr] at hf
  | uint w =>
    simp only [decode] at hf ⊢
    cases hr : (readFull w.bytes inp).err with
    | some x => simp
    | none => simp [hr] at hf
  | string =>
    simp only [decode] at hf ⊢
    cases hr : (decodeByteSlice inp).err with
    | some x => simp
    | none => simp [hr] at hf
  | slice e =>
    by_cases he : e = .uint .w8
    · subst he
      simp only [decode] at hf ⊢
      cases hr : (decodeByteSlice inp).err with
      | some x => simp
      | none => simp [hr] at hf
    · simp only [decode_slice_general e he] at hf ⊢
      cases hr : (readUint32 inp).err with
      | some x => simp
      | none =>
        simp only [hr] at hf ⊢
        cases hs : (decodeElems (decode e) (zero e) (readUint32 inp).val []
            (readUint32 inp).rest).err with
        | some x => simp
        | none => simp [hs] at hf
  | map k e =>
    simp only [decode] at hf ⊢
    cases hr : (readUint32 inp).err with
    | some x => simp
    | none =>
      simp only [hr] at hf ⊢
      cases hs : (decodePairs (keyEq k) (decode k) (zero k) (decode e) (zero e)
          (readUint32 inp).val [] (readUint32 inp).rest).err with
      | some x => simp
      | none => simp [hs] at hf
  | array n e => simp [storesAtEnd] at ht
  | struct fs => simp [storesAtEnd] at ht
  | ptr e => simp [storesAtEnd] at ht
  | iface => simp [storesAtEnd] at ht
  | other k => simp [storesAtEnd] at ht
  | named t =>
    simp only [storesAtEnd] at ht
    by_cases hb : t = .slice (.uint .w8)
    · subst hb
      simp only [decode_named_byteSlice, decodeSliceGeneral] at hf ⊢
      cases hr : (readUint32 inp).err with
      | some x => simp
      | none =>
        simp only [hr] at hf ⊢
        cases hs : (decodeElems (decode (.uint .w8)) (zero (.uint .w8)) (readUint32 inp).val []
            (readUint32 inp).rest).err with
        | some x => simp
        | none => simp [hs] at hf
    · simp only [decode_named t hb] at hf ⊢
      exact stored_only_at_end t ht v inp hf


/-- C18: when decoding into a bool, a fixed-width integer, a string, a slice (of bytes or
not) or a map fails, at the count, at the blob or at any element, key or value, the target
holds exactly the value it had before the call. -/
theorem decode_failure_keeps_target (t : Ty) (ht : storesAtEnd t = true) (v : t.denote)
    (inp : List Byte) (hf : (decode t v inp).err ≠ none) : (decode t v inp).val = v :=
  stored_only_at_end t ht v inp hf

theorem decode_failure_keeps_target_witness :
    storesAtEnd (.slice (.uint .w16)) = true ∧
    (decode (.slice (.uint .w16)) (some [9]) [2, 0, 0, 0, 0x11, 0, 0x22]).err ≠ none ∧
    (decode (.slice (.uint .w16)) (some [9]) [2, 0, 0, 0, 0x11, 0, 0x22]).val = some [9] :=
  ⟨rfl, by decide,
    decode_failure_keeps_target (.slice (.uint .w16)) rfl (some [9])
      [2, 0, 0, 0, 0x11, 0, 0x22] (by decide)⟩

/-- C19: over an in-memory input `Decoder.EOF` answers true exactly when no unread byte is
left, and then leaves the input as it is; when it answers false it has consumed one byte, so
the `Decode` that follows reads from the byte after the one at which the previous `Decode`
stopped. -/
theorem decoder_eof_consumes (inp : List Byte) :
    ((Decoder.EOF inp).1 = true ↔ inp = []) ∧
    ((Decoder.EOF inp).1 = true → (Decoder.EOF inp).2 = inp) ∧
    ((Decoder.EOF inp).1 = false → ∃ b, inp = b :: (Decoder.EOF inp).2) ∧
    (∀ (b : Byte) (rest : List Byte), Decoder.EOF (b :: rest) = (false, rest) ∧
      ∀ (t : Ty) (v : t.denote),
        Decoder.Decode t v (Decoder.EOF (b :: rest)).2 = Decoder.Decode t v rest) ∧
    (∀ (t u : Ty) (v : t.denote) (w : u.denote),
      (Decoder.EOF (Decoder.Decode t v inp).rest).1 = false →
        Decoder.Decode u w (Decoder.EOF (Decoder.Decode t v inp).rest).2
          = Decoder.Decode u w ((Decoder.Decode t v inp).rest.drop 1)) := by
  refine ⟨?_, ?_, ?_, fun b rest => ⟨rfl, fun _ _ => rfl⟩, ?_⟩
  · cases inp <;> simp [Decoder.EOF]
  · cases inp <;> simp [Decoder.EOF]
  · cases inp with
    | nil => simp [Decoder.EOF]
    | cons b rest => exact fun _ => ⟨b, rfl⟩
  · intro t u v w h
    cases hr : (Decoder.Decode t v inp).rest with
    | nil => simp [hr, Decoder.EOF] at h
    | cons b rest => simp [Decoder.EOF]

theorem decoder_eof_consumes_witness :
    (Decoder.EOF [0xAA, 0xBB]).1 = false ∧
    (∃ b, ([0xAA, 0xBB] : List Byte) = b :: (Decoder.EOF [0xAA, 0xBB]).2) ∧
    Decoder.Decode (.uint .w8) 0 (Decoder.EOF [0xAA, 0xBB]).2 = ⟨none, 0xBB, []⟩ :=
  ⟨rfl, (decoder_eof_consumes [0xAA, 0xBB]).2.2.1 rfl, by
    rw [((decoder_eof_consumes []).2.2.2.1 0xAA [0xBB]).2 (.uint .w8) 0]
    decide⟩

theorem decodeElems_consumes {α : Type} (f : α → List Byte → Outcome α) (z : α)
    (hf : ∀ inp, (f z inp).err = none → (f z inp).rest.length + 1 ≤ inp.length) :
    ∀ (n : Nat) (acc : List α) (inp : List Byte), (decodeElems f z n acc inp).err = none →
      (decodeElems f z n acc inp).rest.length + n ≤ inp.length ∧
        (decodeElems f z n acc inp).val.length = acc.length + n
  | 0, acc, inp, _ => by simp [decodeElems]
  | n + 1, acc, inp, h => by
    simp only [decodeElems] at h ⊢
    cases hr : (f z inp).err with
    | some x => simp [hr] at h
    | none =>
      simp only [hr] at h ⊢
      have h1 := hf inp hr
      obtain ⟨h2, h3⟩ := decodeElems_consumes f z hf n _ _ h
      refine ⟨by omega, ?_⟩
      rw [h3]
      simp
      omega

theorem setMapIndex_length {κ ν : Type} (eq : κ → κ → Bool) (k : κ) (v : ν) :
    ∀ m : List (κ × ν), (setMapIndex eq m k v).length ≤ m.length + 1
  | [] => by simp [setMapIndex]
  | (k1, v1) :: m => by
    simp only [setMapIndex]
    split
    · simp
    · have := setMapIndex_length eq k v m
      simp only [List.length_cons]
      omega

theorem decodePairs_consumes {κ ν : Type} (eq : κ → κ → Bool) (fk : κ → List Byte → Outcome κ)
    (zk : κ) (fv : ν → List Byte → Outcome ν) (zv : ν)
    (hp : ∀ inp, (fk zk inp).err = none → (fv zv (fk zk inp).rest).err = none →
      (fv zv (fk zk inp).rest).rest.length + 1 ≤ inp.length) :
    ∀ (n : Nat) (m : List (κ × ν)) (inp : List Byte),
      (decodePairs eq fk zk fv zv n m inp).err = none →
      (decodePairs eq fk zk fv zv n m inp).rest.length + n ≤ inp.length ∧
        (decodePairs eq fk zk fv zv n m inp).val.length ≤ m.length + n
  | 0, m, inp, _ => by simp [decodePairs]
  | n + 1, m, inp, h => by
    simp only [decodePairs] at h ⊢
    cases hr : (fk zk inp).err with
    | some x => simp [hr] at h
    | none =>
      simp only [hr] at h ⊢
      cases hr2 : (fv zv (fk zk inp).rest).err with
      | some x => simp [hr2] at h
      | none =>
        simp only [hr2] at h ⊢
        have h1 := hp inp hr hr2
        obtain ⟨h2, h3⟩ := decodePairs_consumes eq fk zk fv zv hp n _ _ h
        have h4 := setMapIndex_length eq (fk zk inp).val (fv zv (fk zk inp).rest).val m
        exact ⟨by omega, by omega⟩

/-- C20: for a sequence type whose element decode consumes at least one byte whenever it
succeeds, and for a map type whose key decode followed by its value decode consumes at least
one byte whenever both succeed, a successful decode on an input that starts with the four
bytes of a count `c` consumes at least `4 + c` bytes.  So `c` is at most the number of bytes
after the count, however large the count: the decoded sequence has exactly `c` elements and
the decoded map at most `c` bindings. -/
theorem decoded_count_bounded (b0 b1 b2 b3 : Byte) (rest : List Byte) :
    (∀ (e : Ty) (v : (Ty.slice e).denote),
      (∀ inp, (decode e (zero e) inp).err = none →
        (decode e (zero e) inp).rest.length + 1 ≤ inp.length) →
      (decode (.slice e) v (b0 :: b1 :: b2 :: b3 :: rest)).err = none →
      (decode (.slice e) v (b0 :: b1 :: b2 :: b3 :: rest)).rest.length + 4
          + leNat [b0, b1, b2, b3] ≤ (b0 :: b1 :: b2 :: b3 :: rest).length ∧
        leNat [b0, b1, b2, b3] ≤ rest.length ∧
        ∃ xs : List e.denote,
          (decode (.slice e) v (b0 :: b1 :: b2 :: b3 :: rest)).val = some xs ∧
            xs.length = leNat [b0, b1, b2, b3]) ∧
    (∀ (k e : Ty) (v : (Ty.map k e).denote),
      (∀ inp, (decode k (zero k) inp).err = none →
        (decode e (zero e) (decode k (zero k) inp).rest).err = none →
        (decode e (zero e) (decode k (zero k) inp).rest).rest.length + 1 ≤ inp.length) →
      (decode (.map k e) v (b0 :: b1 :: b2 :: b3 :: rest)).err = none →
      (decode (.map k e) v (b0 :: b1 :: b2 :: b3 :: rest)).rest.length + 4
          + leNat [b0, b1, b2, b3] ≤ (b0 :: b1 :: b2 :: b3 :: rest).length ∧
        leNat [b0, b1, b2, b3] ≤ rest.length ∧
        ∃ m : List (k.denote × e.denote),
          (decode (.map k e) v (b0 :: b1 :: b2 :: b3 :: rest)).val = some m ∧
            m.length ≤ leNat [b0, b1, b2, b3]) := by
  constructor
  · intro e v hel h
    by_cases he : e = .uint .w8
    · subst he
      have hf : decode (.slice (.uint .w8)) v (b0 :: b1 :: b2 :: b3 :: rest) =
          (match (decodeByteSlice (b0 :: b1 :: b2 :: b3 :: rest)).err with
            | some e => ⟨some e, v, (decodeByteSlice (b0 :: b1 :: b2 :: b3 :: rest)).rest⟩
            | none => ⟨none,
                some ((decodeByteSlice (b0 :: b1 :: b2 :: b3 :: rest)).val.map (fun b => b.val)),
                (decodeByteSlice (b0 :: b1 :: b2 :: b3 :: rest)).rest⟩) := rfl
      rw [hf] at h ⊢
      simp only [decodeByteSlice, readUint32_four] at h ⊢
      by_cases hm : leNat [b0, b1, b2, b3] > MaxByteSliceSize
      · simp [hm] at h
      · simp only [hm, if_false] at h ⊢
        by_cases hl : leNat [b0, b1, b2, b3] ≤ rest.length
        · simp only [readFull_ok hl, List.length_drop, List.length_cons]
          refine ⟨by omega, hl, _, rfl, ?_⟩
          simp [hl]
        · simp [readFull_short (Nat.not_le.mp hl)] at h
    · simp only [decode_slice_general e he, readUint32_four] at h ⊢
      cases hs : (decodeElems (decode e) (zero e) (leNat [b0, b1, b2, b3]) [] rest).err with
      | some x => simp [hs] at h
      | none =>
        obtain ⟨h1, h2⟩ := decodeElems_consumes (decode e) (zero e) hel _ _ _ hs
        simp only [List.length_cons]
        refine ⟨by omega, by omega, _, rfl, ?_⟩
        simpa using h2
  · intro k e v hp h
    simp only [decode, readUint32_four] at h ⊢
    cases hs : (decodePairs (keyEq k) (decode k) (zero k) (decode e) (zero e)
        (leNat [b0, b1, b2, b3]) [] rest).err with
    | some x => simp [hs] at h
    | none =>
      obtain ⟨h1, h2⟩ := decodePairs_consumes (keyEq k) (decode k) (zero k) (decode e) (zero e)
        hp _ _ _ hs
      simp only [List.length_cons]
      refine ⟨by omega, by omega, _, rfl, ?_⟩
      simpa using h2

theorem uint16_consumes (inp : List Byte)
    (h : (decode (.uint .w16) (zero (.uint .w16)) inp).err = none) :
    (decode (.uint .w16) (zero (.uint .w16)) inp).rest.length + 1 ≤ inp.length := by
  simp only [decode, Width.bytes] at h ⊢
  by_cases hl : 2 ≤ inp.length
  · simp only [readFull_ok hl, List.length_drop]
    omega
  · simp [readFull_short (Nat.not_le.mp hl)] at h

theorem decoded_count_bounded_witness :
    (decode (.slice (.uint .w16)) none (2 :: 0 :: 0 :: 0 :: [0x11, 0, 0x22, 0, 0x99])).err
      = none ∧
    (decode (.slice (.uint .w16)) none (2 :: 0 :: 0 :: 0 :: [0x11, 0, 0x22, 0, 0x99])).rest.length
        + 4 + leNat [2, 0, 0, 0]
      ≤ (2 :: 0 :: 0 :: 0 :: ([0x11, 0, 0x22, 0, 0x99] : List Byte)).length ∧
    leNat [2, 0, 0, 0] ≤ ([0x11, 0, 0x22, 0, 0x99] : List Byte).length ∧
    ∃ xs : List Nat,
      (decode (.slice (.uint .w16)) none (2 :: 0 :: 0 :: 0 :: [0x11, 0, 0x22, 0, 0x99])).val
        = some xs ∧ xs.length = leNat [2, 0, 0, 0] :=
  ⟨by decide,
    (decoded_count_bounded 2 0 0 0 [0x11, 0, 0x22, 0, 0x99]).1 (.uint .w16) none
      uint16_consumes (by decide)⟩
